import Mathlib

/-!
Verification of the `linstr` block-based signal-processing graph.

This file gives a shallow embedding of the core of the repository:

* the stream/command data model and the instrument container (`src/lib.rs`),
* the graph scheduler (`src/graph.rs`),
* the linear envelope (`src/instrument/envelope.rs`),
* the sine oscillator (`src/instrument/oscillators.rs`),
* the delay line (`src/instrument/mod.rs`).

Modelling conventions:

* `f32` samples (`MusicalValue`) are modelled as exact rationals `ℚ`;
  `usize`/`u8`/`u16` become `ℕ` (their arithmetic here never wraps: indices
  and times only grow by `+ 1` and are compared, so no modular reduction is
  needed).
* Fixed-size Rust arrays become lists; the constructors build them at their
  Rust lengths (blocks of 128 samples / 128 control elements).
* Rust panics (out-of-bounds indexing, explicit `panic!`, `Option::unwrap` on
  `None`) are modelled by returning `none` from an `Option`-valued function.
* The wrapped instrument inside a container (`dyn Instrument`) is modelled as
  a function from the history of consumed input blocks to the produced output
  block, which is exactly the observable behaviour of a stateful block
  transform.
-/

set_option linter.unusedVariables false

/-- `NoteCommandType` from `src/lib.rs`: `Noop`, `NoteOn`, `NoteOff`. -/
inductive NoteCommandType where
  | noop : NoteCommandType
  | noteOn : NoteCommandType
  | noteOff : NoteCommandType
deriving DecidableEq, Repr

/-- `NoteCommand<N>` from `src/lib.rs`: a command type, a velocity (`u8`,
full range 0–255, modelled as `ℕ`) and a note. -/
structure NoteCommand (Note : Type) where
  command_type : NoteCommandType
  velocity : ℕ
  note : Note
deriving DecidableEq, Repr

/-- `STANDARD_BLOCK_SIZE` from `src/lib.rs`. -/
def STANDARD_BLOCK_SIZE : ℕ := 128

/-- `STANDARD_ELEMENT_COUNT` from `src/lib.rs`. -/
def STANDARD_ELEMENT_COUNT : ℕ := 128

/-- The `Noop` command with zero velocity and the default note, used by
`InstrumentContainerImpl::new` and `clear_input` in `src/lib.rs`. -/
def noopCommand (Note : Type) [Inhabited Note] : NoteCommand Note :=
  ⟨NoteCommandType.noop, 0, default⟩

/-- A container input block: the value-stream rows paired with the
control-stream rows (`InstrumentInput` from `src/lib.rs`, at the standard
block/element sizes used by `InstrumentContainerImpl`). -/
abbrev ContainerInput (Note : Type) : Type :=
  List (List ℚ) × List (List (NoteCommand Note))

/-- `InstrumentContainerImpl` from `src/lib.rs`: one instrument together with
its input and output blocks.  The wrapped instrument is modelled by its
behaviour function `behav`, mapping the history of all input blocks consumed
so far to the output block produced by the latest `process_block` call;
`past` records that history. -/
structure Container (Note : Type) where
  inputValue : List (List ℚ)
  inputControl : List (List (NoteCommand Note))
  output : List (List ℚ)
  past : List (ContainerInput Note)
  behav : List (ContainerInput Note) → List (List ℚ)

namespace Container

variable {Note : Type} [Inhabited Note]

/-- `InstrumentContainerImpl::new` from `src/lib.rs`: input value streams all
zero, input control streams all `Noop`, output streams all zero.  The three
arities are the const generics `IN_VALUE_STREAMS`, `IN_CONTROL_STREAMS`,
`OUT_VALUE_STREAMS`. -/
def new (inValueStreams inControlStreams outValueStreams : ℕ)
    (behav : List (ContainerInput Note) → List (List ℚ)) : Container Note where
  inputValue := List.replicate inValueStreams (List.replicate STANDARD_BLOCK_SIZE (0 : ℚ))
  inputControl := List.replicate inControlStreams
    (List.replicate STANDARD_ELEMENT_COUNT (noopCommand Note))
  output := List.replicate outValueStreams (List.replicate STANDARD_BLOCK_SIZE (0 : ℚ))
  past := []
  behav := behav

/-- `in_value_streams()`: the declared number of input value streams. -/
def in_value_streams (c : Container Note) : ℕ := c.inputValue.length

/-- `in_control_streams()`: the declared number of input control streams. -/
def in_control_streams (c : Container Note) : ℕ := c.inputControl.length

/-- `out_value_streams()`: the declared number of output value streams. -/
def out_value_streams (c : Container Note) : ℕ := c.output.length

/-- `get_output` from `src/lib.rs`: a view of output stream `index`;
`none` models the panic on an out-of-range stream index. -/
def get_output (c : Container Note) (index : ℕ) : Option (List ℚ) :=
  c.output.get? index

/-- `feed_control_stream` from `src/lib.rs`: copy the first
`min (stream.length) STANDARD_ELEMENT_COUNT` commands over the head of the
corresponding input row, leaving the rest of the row unchanged; `none`
models the panic on an out-of-range stream index. -/
def feed_control_stream (c : Container Note) (stream_index : ℕ)
    (stream : List (NoteCommand Note)) : Option (Container Note) :=
  let len := min stream.length STANDARD_ELEMENT_COUNT
  match c.inputControl.get? stream_index with
  | none => none
  | some row =>
      some { c with inputControl :=
        c.inputControl.set stream_index (stream.take len ++ row.drop len) }

/-- `feed_value_stream` from `src/lib.rs`: add the first
`min (stream.length) STANDARD_BLOCK_SIZE` samples pointwise onto the head of
the corresponding input row, leaving the rest of the row unchanged; `none`
models the panic on an out-of-range stream index. -/
def feed_value_stream (c : Container Note) (stream_index : ℕ)
    (stream : List ℚ) : Option (Container Note) :=
  let len := min stream.length STANDARD_BLOCK_SIZE
  match c.inputValue.get? stream_index with
  | none => none
  | some row =>
      some { c with inputValue :=
        (c.inputValue.set stream_index
          (List.zipWith (fun a b => a + b) (row.take len) (stream.take len) ++ row.drop len)) }

/-- `clear_input` from `src/lib.rs`: reset every control row to `Noop`
commands and every value row to zeros. -/
def clear_input (c : Container Note) : Container Note :=
  { c with
    inputControl := c.inputControl.map
      (fun _ => List.replicate STANDARD_ELEMENT_COUNT (noopCommand Note))
    inputValue := c.inputValue.map
      (fun _ => List.replicate STANDARD_BLOCK_SIZE (0 : ℚ)) }

/-- `process_block` from `src/lib.rs`: run the wrapped instrument on the
accumulated input block (producing the output block), then clear the input
buffers. -/
def process_block (c : Container Note) : Container Note :=
  let history := c.past ++ [(c.inputValue, c.inputControl)]
  clear_input { c with output := c.behav history, past := history }

/-- `process_next` of the `InstrumentContainer` trait impl: delegates to
`process_block`. -/
def process_next (c : Container Note) : Container Note :=
  c.process_block

end Container

/-! ### List helper lemmas -/

theorem getD_set_self {α : Type} (l : List α) (i : ℕ) (a d : α) (h : i < l.length) :
    (l.set i a).getD i d = a := by
  simp [List.getD_eq_getElem?_getD, List.getElem?_set_eq_of_lt, h]

theorem getD_set_ne {α : Type} (l : List α) (i j : ℕ) (a d : α) (h : i ≠ j) :
    (l.set i a).getD j d = l.getD j d := by
  simp [List.getD_eq_getElem?_getD, List.getElem?_set_ne, h]

theorem getD_take_lt {α : Type} (l : List α) (n k : ℕ) (d : α) (h : k < n) :
    (l.take n).getD k d = l.getD k d := by
  simp [List.getD_eq_getElem?_getD, List.getElem?_take, h]

theorem getD_drop {α : Type} (l : List α) (n k : ℕ) (d : α) :
    (l.drop n).getD k d = l.getD (n + k) d := by
  simp [List.getD_eq_getElem?_getD, List.getElem?_drop]

theorem getD_append_lt {α : Type} (l₁ l₂ : List α) (k : ℕ) (d : α) (h : k < l₁.length) :
    (l₁ ++ l₂).getD k d = l₁.getD k d :=
  List.getD_append l₁ l₂ d k h

theorem getD_replicate_lt {α : Type} (n k : ℕ) (a d : α) (h : k < n) :
    (List.replicate n a).getD k d = a := by
  simp [List.getD_eq_getElem?_getD, List.getElem?_replicate, h]

theorem get?_eq_some_getD {α : Type} (l : List α) (i : ℕ) (d : α) (h : i < l.length) :
    l.get? i = some (l.getD i d) := by
  rw [List.get?_eq_getElem?, List.getElem?_eq_getElem h]
  simp [List.getD_eq_getElem?_getD, List.getElem?_eq_getElem h]

theorem getElem?_eq_some_getD {α : Type} (l : List α) (i : ℕ) (d : α) (h : i < l.length) :
    l[i]? = some (l.getD i d) := by
  rw [← List.get?_eq_getElem?]
  exact get?_eq_some_getD l i d h

theorem getD_zipWith_add (l₁ l₂ : List ℚ) (k : ℕ) (h₁ : k < l₁.length) (h₂ : k < l₂.length) :
    (List.zipWith (fun a b => a + b) l₁ l₂).getD k 0 = l₁.getD k 0 + l₂.getD k 0 := by
  induction l₁ generalizing l₂ k with
  | nil => simp at h₁
  | cons x xs ih =>
      cases l₂ with
      | nil => simp at h₂
      | cons y ys =>
          cases k with
          | zero => simp
          | succ k =>
              simp only [List.zipWith_cons_cons, List.getD_cons_succ]
              exact ih ys k (by simpa using h₁) (by simpa using h₂)

/-! ### C7: a container's `process_next` clears its input accumulators -/

/-- C7: after every call to a container's `process_next`, all of its input
value-stream accumulator rows are exactly zero (every sample `0.0`) and all
of its control-stream accumulator rows are exactly `Noop` commands; the row
counts (the declared arities) are unchanged, so the next step starts from a
clean accumulator. -/
theorem c7_process_next_clears_inputs {Note : Type} [Inhabited Note] (c : Container Note) :
    (∀ row ∈ (Container.process_next c).inputValue,
        row = List.replicate STANDARD_BLOCK_SIZE (0 : ℚ)) ∧
    (∀ row ∈ (Container.process_next c).inputControl,
        row = List.replicate STANDARD_ELEMENT_COUNT (noopCommand Note)) ∧
    (Container.process_next c).inputValue.length = c.in_value_streams ∧
    (Container.process_next c).inputControl.length = c.in_control_streams := by
  refine ⟨?_, ?_, ?_, ?_⟩ <;>
    simp [Container.process_next, Container.process_block, Container.clear_input,
      Container.in_value_streams, Container.in_control_streams]

/-! ### C5: `feed_value_stream` is additive -/

/-- Feeding a sequence of blocks one after the other into the same value
stream index (as multiple upstream producers do within one step). -/
def feedValueAll {Note : Type} [Inhabited Note] (c : Container Note) (stream_index : ℕ)
    (blocks : List (List ℚ)) : Option (Container Note) :=
  blocks.foldlM (fun c b => Container.feed_value_stream c stream_index b) c

theorem feed_value_stream_full {Note : Type} [Inhabited Note] (c : Container Note)
    (idx : ℕ) (b : List ℚ) (hidx : idx < c.inputValue.length)
    (hrow : (c.inputValue.getD idx []).length = STANDARD_BLOCK_SIZE)
    (hb : b.length = STANDARD_BLOCK_SIZE) :
    Container.feed_value_stream c idx b =
      some { c with inputValue :=
        (c.inputValue.set idx
          (List.zipWith (fun a b => a + b) (c.inputValue.getD idx []) b)) } := by
  have hget : c.inputValue.get? idx = some (c.inputValue.getD idx []) :=
    get?_eq_some_getD _ _ _ hidx
  simp only [Container.feed_value_stream, hget, hb, min_self]
  congr 2
  rw [List.take_of_length_le (by omega), List.take_of_length_le (by omega),
    List.drop_eq_nil_of_le (by omega), List.append_nil]

/-- C5: `feed_value_stream` is additive — each fed block is added pointwise
into the existing input-buffer contents, so `n` upstream contributions fed
before the next `process_next` accumulate as their pointwise sum (in
particular, feeding a block of `1.0`s twice yields a row of `2.0`s). -/
theorem c5_feed_value_stream_additive {Note : Type} [Inhabited Note] (c : Container Note)
    (idx : ℕ) (blocks : List (List ℚ))
    (hidx : idx < c.inputValue.length)
    (hrow : (c.inputValue.getD idx []).length = STANDARD_BLOCK_SIZE)
    (hblocks : ∀ b ∈ blocks, b.length = STANDARD_BLOCK_SIZE) :
    ∃ c2, feedValueAll c idx blocks = some c2 ∧
      ∀ k, k < STANDARD_BLOCK_SIZE →
        (c2.inputValue.getD idx []).getD k 0 =
          (c.inputValue.getD idx []).getD k 0 +
            (blocks.map (fun b => b.getD k 0)).sum := by
  induction blocks generalizing c with
  | nil =>
      exact ⟨c, rfl, fun k hk => by simp⟩
  | cons b bs ih =>
      have hb : b.length = STANDARD_BLOCK_SIZE := hblocks b (by simp)
      set c1 : Container Note := { c with inputValue :=
        (c.inputValue.set idx
          (List.zipWith (fun a b => a + b) (c.inputValue.getD idx []) b)) } with hc1
      have hidx1 : idx < c1.inputValue.length := by
        simpa [hc1] using hidx
      have hrow1 : c1.inputValue.getD idx [] =
          List.zipWith (fun a b => a + b) (c.inputValue.getD idx []) b := by
        simp only [hc1]
        exact getD_set_self _ _ _ _ hidx
      have hrow1len : (c1.inputValue.getD idx []).length = STANDARD_BLOCK_SIZE := by
        rw [hrow1, List.length_zipWith, hrow, hb, min_self]
      obtain ⟨c2, hfeed, hsum⟩ := ih c1 hidx1 hrow1len (fun x hx => hblocks x (by simp [hx]))
      refine ⟨c2, ?_, ?_⟩
      · simpa [feedValueAll, feed_value_stream_full c idx b hidx hrow hb, hc1] using hfeed
      · intro k hk
        rw [hsum k hk, hrow1, getD_zipWith_add _ _ _ (by omega) (by omega)]
        simp [add_assoc]

/-- The container used for the C5 witness: a fresh `container()`-built unit
with one input value stream. -/
def c5box : Container ℕ := Container.new 1 0 1 (fun _ => [])

/-- Witness for C5 at the spec's concrete example: feeding `[1.0]*128` twice
into stream 0 of a fresh container yields an input row of `[2.0]*128`. -/
theorem c5_feed_value_stream_additive_witness :
    ∃ c2, feedValueAll c5box 0 [List.replicate 128 (1 : ℚ), List.replicate 128 (1 : ℚ)]
        = some c2 ∧
      ∀ k, k < STANDARD_BLOCK_SIZE → (c2.inputValue.getD 0 []).getD k 0 = 2 := by
  obtain ⟨c2, h1, h2⟩ := c5_feed_value_stream_additive c5box 0
    [List.replicate 128 (1 : ℚ), List.replicate 128 (1 : ℚ)]
    (by simp [c5box, Container.new]) (by simp [c5box, Container.new, STANDARD_BLOCK_SIZE])
    (by
      intro b hb
      rcases List.mem_cons.mp hb with rfl | hb2
      · simp [STANDARD_BLOCK_SIZE]
      · rcases List.mem_cons.mp hb2 with rfl | hb3
        · simp [STANDARD_BLOCK_SIZE]
        · simp at hb3)
  refine ⟨c2, h1, fun k hk => ?_⟩
  have hk128 : k < 128 := by simpa [STANDARD_BLOCK_SIZE] using hk
  rw [h2 k hk]
  have h0 : (c5box.inputValue.getD 0 []).getD k 0 = 0 := by
    rw [show c5box.inputValue.getD 0 [] = List.replicate 128 (0 : ℚ) from rfl,
      getD_replicate_lt _ _ _ _ hk128]
  have h1r : (List.replicate 128 (1 : ℚ)).getD k 0 = 1 := getD_replicate_lt _ _ _ _ hk128
  rw [List.map_cons, List.map_cons, List.map_nil, List.sum_cons, List.sum_cons, List.sum_nil,
    h0, h1r]
  norm_num

/-! ### C4: `feed_control_stream` overwrite semantics -/

/-- The container used for the C4 counterexample and witness: a fresh
`container()`-built unit with one input control stream. -/
def c4box : Container ℕ := Container.new 0 1 1 (fun _ => [])

/-- A concrete `NoteOn` command. -/
def c4on : NoteCommand ℕ := ⟨NoteCommandType.noteOn, 10, 0⟩

/-- A concrete `NoteOff` command. -/
def c4off : NoteCommand ℕ := ⟨NoteCommandType.noteOff, 10, 0⟩

/-- Counterexample to C4 as stated: feeding the two-command slice
`[NoteOn, NoteOn]` and then the one-command slice `[NoteOff]` to control
stream 0 does NOT leave exactly the second call's data — element 1 of the
input row still holds the first call's `NoteOn`, whereas feeding the second
slice alone leaves `Noop` there. -/
theorem c4_counterexample :
    ((Container.feed_control_stream c4box 0 [c4on, c4on]).bind
        (fun c => Container.feed_control_stream c 0 [c4off])).map
        (fun c => (c.inputControl.getD 0 []).getD 1 (noopCommand ℕ)) = some c4on
    ∧ (Container.feed_control_stream c4box 0 [c4off]).map
        (fun c => (c.inputControl.getD 0 []).getD 1 (noopCommand ℕ)) = some (noopCommand ℕ)
    ∧ c4on ≠ noopCommand ℕ := by
  refine ⟨rfl, rfl, by decide⟩

/-- C4 amended: `feed_control_stream` is an element-wise overwrite of the
first `min (slice length) 128` positions.  For two slices fed before the
next `process_next`, the second call's data wins wherever the second slice
reaches, positions beyond the second slice's extent but within the first
slice's extent still hold the first call's data, and only when the second
slice covers at least as many positions as the first is the result exactly
that of feeding the second slice alone. -/
theorem c4_feed_control_stream_amended {Note : Type} [Inhabited Note] (c : Container Note)
    (idx : ℕ) (s1 s2 : List (NoteCommand Note)) (d : NoteCommand Note)
    (hidx : idx < c.inputControl.length) :
    ∃ c1 c2, Container.feed_control_stream c idx s1 = some c1 ∧
      Container.feed_control_stream c1 idx s2 = some c2 ∧
      (∀ j, j < min s2.length STANDARD_ELEMENT_COUNT →
          (c2.inputControl.getD idx []).getD j d = s2.getD j d) ∧
      (∀ j, min s2.length STANDARD_ELEMENT_COUNT ≤ j →
          j < min s1.length STANDARD_ELEMENT_COUNT →
          (c2.inputControl.getD idx []).getD j d = s1.getD j d) ∧
      (min s1.length STANDARD_ELEMENT_COUNT ≤ min s2.length STANDARD_ELEMENT_COUNT →
          Container.feed_control_stream c idx s2 = some c2) := by
  set l1 := min s1.length STANDARD_ELEMENT_COUNT with hl1
  set l2 := min s2.length STANDARD_ELEMENT_COUNT with hl2
  set row := c.inputControl.getD idx [] with hrow
  have hget : c.inputControl.get? idx = some row := get?_eq_some_getD _ _ _ hidx
  set row1 := s1.take l1 ++ row.drop l1 with hrow1
  set c1 : Container Note :=
    { c with inputControl := (c.inputControl.set idx row1) } with hc1
  have hfeed1 : Container.feed_control_stream c idx s1 = some c1 := by
    simp only [Container.feed_control_stream, hget]
  have hidx1 : idx < c1.inputControl.length := by simpa [hc1] using hidx
  have hget1 : c1.inputControl.get? idx = some row1 := by
    rw [get?_eq_some_getD _ _ row hidx1]
    congr 1
    simp only [hc1]
    exact getD_set_self _ _ _ _ hidx
  set row2 := s2.take l2 ++ row1.drop l2 with hrow2
  set c2 : Container Note :=
    { c with inputControl := (c.inputControl.set idx row2) } with hc2
  have hfeed2 : Container.feed_control_stream c1 idx s2 = some c2 := by
    simp only [Container.feed_control_stream, hget1, hc1, hc2, List.set_set]
  have hrow2get : c2.inputControl.getD idx [] = row2 := by
    simp only [hc2]
    exact getD_set_self _ _ _ _ hidx
  have htake2len : (s2.take l2).length = l2 := by
    simp [hl2, List.length_take]
  have htake1len : (s1.take l1).length = l1 := by
    simp [hl1, List.length_take]
  refine ⟨c1, c2, hfeed1, hfeed2, ?_, ?_, ?_⟩
  · intro j hj
    rw [hrow2get, hrow2, getD_append_lt _ _ _ _ (by omega),
      getD_take_lt _ _ _ _ hj]
  · intro j hj2 hj1
    rw [hrow2get, hrow2, List.getD_append_right _ _ _ _ (by omega), htake2len,
      getD_drop, Nat.add_sub_cancel' hj2, hrow1, getD_append_lt _ _ _ _ (by omega),
      getD_take_lt _ _ _ _ hj1]
  · intro hle
    have hdrop : row1.drop l2 = row.drop l2 := by
      rw [hrow1, List.drop_append_eq_append_drop, htake1len,
        List.drop_eq_nil_of_le (by omega), List.nil_append, List.drop_drop,
        Nat.add_sub_cancel' hle]
    simp only [Container.feed_control_stream, hget]
    rw [hc2, hrow2, hdrop]

/-- Witness for the amended C4 at concrete inputs: the two-then-one slice
scenario on a fresh one-control-stream container. -/
theorem c4_feed_control_stream_amended_witness :
    ∃ c1 c2, Container.feed_control_stream c4box 0 [c4on, c4on] = some c1 ∧
      Container.feed_control_stream c1 0 [c4off] = some c2 ∧
      (∀ j, j < min ([c4off] : List (NoteCommand ℕ)).length STANDARD_ELEMENT_COUNT →
          (c2.inputControl.getD 0 []).getD j (noopCommand ℕ) =
            ([c4off] : List (NoteCommand ℕ)).getD j (noopCommand ℕ)) ∧
      (∀ j, min ([c4off] : List (NoteCommand ℕ)).length STANDARD_ELEMENT_COUNT ≤ j →
          j < min ([c4on, c4on] : List (NoteCommand ℕ)).length STANDARD_ELEMENT_COUNT →
          (c2.inputControl.getD 0 []).getD j (noopCommand ℕ) =
            ([c4on, c4on] : List (NoteCommand ℕ)).getD j (noopCommand ℕ)) ∧
      (min ([c4on, c4on] : List (NoteCommand ℕ)).length STANDARD_ELEMENT_COUNT ≤
          min ([c4off] : List (NoteCommand ℕ)).length STANDARD_ELEMENT_COUNT →
          Container.feed_control_stream c4box 0 [c4off] = some c2) :=
  c4_feed_control_stream_amended c4box 0 [c4on, c4on] [c4off] (noopCommand ℕ)
    (by simp [c4box, Container.new])

/-! ### C6: the sine oscillator keeps its phase in `[0, 1)` -/

/-- The `while self.phase >= 1.0 { self.phase -= 1.0 }` loop of
`SineOscillator::process_block` (`src/instrument/oscillators.rs`). -/
def oscWrapDown (p : ℚ) : ℚ :=
  if h : 1 ≤ p then oscWrapDown (p - 1) else p
termination_by (⌈p⌉).toNat
decreasing_by
  have h1 : (1 : ℤ) ≤ ⌈p⌉ := by
    have := Int.le_ceil p
    have : (1 : ℚ) ≤ (⌈p⌉ : ℚ) := le_trans h this
    exact_mod_cast this
  rw [show p - 1 = p - (1 : ℤ) by norm_num, Int.ceil_sub_int]
  omega

/-- The `while self.phase < 0.0 { self.phase += 1.0 }` loop of
`SineOscillator::process_block` (`src/instrument/oscillators.rs`). -/
def oscWrapUp (p : ℚ) : ℚ :=
  if h : p < 0 then oscWrapUp (p + 1) else p
termination_by (-⌊p⌋).toNat
decreasing_by
  have h1 : ⌊p⌋ < 0 := by
    have := Int.floor_le p
    have : (⌊p⌋ : ℚ) < 0 := lt_of_le_of_lt this h
    exact_mod_cast this
  rw [show p + 1 = p + (1 : ℤ) by norm_num, Int.floor_add_int]
  omega

theorem oscWrapDown_lt_one_aux : ∀ (k : ℕ) (p : ℚ), (⌈p⌉).toNat ≤ k → oscWrapDown p < 1 := by
  intro k
  induction k with
  | zero =>
      intro p hp
      rw [oscWrapDown]
      split_ifs with h
      · exfalso
        have h1 : (1 : ℤ) ≤ ⌈p⌉ := by
          have := Int.le_ceil p
          have : (1 : ℚ) ≤ (⌈p⌉ : ℚ) := le_trans h this
          exact_mod_cast this
        omega
      · linarith [not_le.mp h]
  | succ k ih =>
      intro p hp
      rw [oscWrapDown]
      split_ifs with h
      · apply ih
        have h1 : (1 : ℤ) ≤ ⌈p⌉ := by
          have := Int.le_ceil p
          have : (1 : ℚ) ≤ (⌈p⌉ : ℚ) := le_trans h this
          exact_mod_cast this
        rw [show p - 1 = p - (1 : ℤ) by norm_num, Int.ceil_sub_int]
        omega
      · linarith [not_le.mp h]

theorem oscWrapDown_lt_one (p : ℚ) : oscWrapDown p < 1 :=
  oscWrapDown_lt_one_aux (⌈p⌉).toNat p le_rfl

theorem oscWrapUp_mem_aux : ∀ (k : ℕ) (p : ℚ), (-⌊p⌋).toNat ≤ k → p < 1 →
    0 ≤ oscWrapUp p ∧ oscWrapUp p < 1 := by
  intro k
  induction k with
  | zero =>
      intro p hp hlt
      rw [oscWrapUp]
      split_ifs with h
      · exfalso
        have h1 : ⌊p⌋ < 0 := by
          have := Int.floor_le p
          have : (⌊p⌋ : ℚ) < 0 := lt_of_le_of_lt this h
          exact_mod_cast this
        omega
      · exact ⟨not_lt.mp h, hlt⟩
  | succ k ih =>
      intro p hp hlt
      rw [oscWrapUp]
      split_ifs with h
      · apply ih
        · have h1 : ⌊p⌋ < 0 := by
            have := Int.floor_le p
            have : (⌊p⌋ : ℚ) < 0 := lt_of_le_of_lt this h
            exact_mod_cast this
          rw [show p + 1 = p + (1 : ℤ) by norm_num, Int.floor_add_int]
          omega
        · linarith
      · exact ⟨not_lt.mp h, hlt⟩

theorem oscWrapUp_mem (p : ℚ) (hlt : p < 1) : 0 ≤ oscWrapUp p ∧ oscWrapUp p < 1 :=
  oscWrapUp_mem_aux (-⌊p⌋).toNat p le_rfl hlt

/-- The exact rational value of the `f32` constant `core::f32::consts::PI`
(bit pattern `0x40490FDB`). -/
def f32PI : ℚ := 13176795 / 4194304

/-- `SineOscillator` from `src/instrument/oscillators.rs`: a sampling rate
fixed at construction and the current phase. -/
structure SineOscillator where
  sampling_rate : ℕ
  phase : ℚ

/-- `SineOscillator::new`: phase starts at `0.0`. -/
def SineOscillator.new (sampling_rate : ℕ) : SineOscillator :=
  ⟨sampling_rate, 0⟩

/-- The per-sample phase update of `SineOscillator::process_block`: add
`frequency / sampling_rate` plus the phase-offset input, then wrap into
`[0, 1)` by the two `while` loops (first subtracting while `>= 1.0`, then
adding while `< 0.0`). -/
def oscStepPhase (rate : ℕ) (phase freq off : ℚ) : ℚ :=
  oscWrapUp (oscWrapDown (phase + (freq / (rate : ℚ) + off)))

/-- The sequence of stored phases after each sample of a block, starting
from phase `phase`; the input is the per-sample zip of input stream 0
(frequency) and input stream 1 (phase offset). -/
def oscPhases (rate : ℕ) (phase : ℚ) : List (ℚ × ℚ) → List ℚ
  | [] => []
  | fo :: rest =>
      let p := oscStepPhase rate phase fo.1 fo.2
      p :: oscPhases rate p rest

/-- `SineOscillator::process_block` from `src/instrument/oscillators.rs`:
for each sample, update the phase and emit `sinf (2 * PI * phase)`.
`sinf` models `libm::sinf`; the result is the oscillator after the block
together with the output block. -/
def SineOscillator.process_block (sinf : ℚ → ℚ) (o : SineOscillator)
    (ins : List (ℚ × ℚ)) : SineOscillator × List ℚ :=
  match ins with
  | [] => (o, [])
  | fo :: rest =>
      let p := oscStepPhase o.sampling_rate o.phase fo.1 fo.2
      let r := SineOscillator.process_block sinf ⟨o.sampling_rate, p⟩ rest
      (r.1, sinf (2 * f32PI * p) :: r.2)

/-- C6: for every input block (any frequencies and phase offsets, zipped per
sample), `SineOscillator::process_block` stores, after each sample, exactly
the phases given by `oscPhases` (increment by `frequency / sampling_rate`
plus the phase offset, then wrap by repeated add/subtract of `1.0`), every
such stored phase lies in `[0, 1)`, and the emitted sample equals
`sinf (2 * PI * phase)` for the phase stored at that sample. -/
theorem c6_oscillator_phase_invariant (sinf : ℚ → ℚ) (o : SineOscillator)
    (ins : List (ℚ × ℚ)) :
    SineOscillator.process_block sinf o ins =
      (⟨o.sampling_rate, (oscPhases o.sampling_rate o.phase ins).getLastD o.phase⟩,
        (oscPhases o.sampling_rate o.phase ins).map (fun p => sinf (2 * f32PI * p)))
    ∧ ∀ p ∈ oscPhases o.sampling_rate o.phase ins, 0 ≤ p ∧ p < 1 := by
  obtain ⟨rate, phase⟩ := o
  induction ins generalizing phase with
  | nil => exact ⟨rfl, by simp [oscPhases]⟩
  | cons fo rest ih =>
      set p := oscStepPhase rate phase fo.1 fo.2 with hp
      have hmem : 0 ≤ p ∧ p < 1 := by
        rw [hp]
        exact oscWrapUp_mem _ (oscWrapDown_lt_one _)
      obtain ⟨ih1, ih2⟩ := ih p
      constructor
      · show SineOscillator.process_block sinf ⟨rate, phase⟩ (fo :: rest) = _
        rw [SineOscillator.process_block]
        simp only [← hp, ih1, oscPhases, List.getLastD_cons, List.map_cons]
      · intro q hq
        rw [show oscPhases rate phase (fo :: rest) = p :: oscPhases rate p rest from rfl]
          at hq
        rcases List.mem_cons.mp hq with rfl | hq2
        · exact hmem
        · exact ih2 q hq2

/-! ### C9: the delay line delays by exactly `delay` samples -/

/-- If `a < 2 * n`, then `a % n` is `a` or `a - n`. -/
theorem mod_two_span (a n : ℕ) (hn : 0 < n) (h : a < 2 * n) :
    a % n = if a < n then a else a - n := by
  split_ifs with hlt
  · exact Nat.mod_eq_of_lt hlt
  · rw [Nat.mod_eq_sub_mod (not_lt.mp hlt), Nat.mod_eq_of_lt (by omega)]

theorem getD_tail {α : Type} (l : List α) (i : ℕ) (d : α) :
    l.tail.getD i d = l.getD (i + 1) d := by
  simp [List.getD_eq_getElem?_getD, List.getElem?_tail]

theorem headD_eq_getD {α : Type} (l : List α) (d : α) : l.headD d = l.getD 0 d := by
  cases l <;> rfl

/-- `Delay` from `src/instrument/mod.rs`: a delay time (`u16`), a 65536-entry
sample buffer (modelled as a total function; all accesses stay at indices
`≤ delay < 65536`) and the current buffer index. -/
structure Delay where
  delay : ℕ
  buffer : ℕ → ℚ
  buffer_index : ℕ

/-- `Delay::new`: zero-filled buffer, buffer index 0. -/
def Delay.new (delay : ℕ) : Delay :=
  ⟨delay, fun _ => 0, 0⟩

/-- One loop iteration of `Delay::process_block`: store the input sample at
`buffer_index`, advance the index (wrapping to 0 once it exceeds `delay`),
and emit the sample now under the advanced index. -/
def Delay.step (s : Delay) (x : ℚ) : Delay × ℚ :=
  let buffer := Function.update s.buffer s.buffer_index x
  let bi := s.buffer_index + 1
  let bi := if s.delay < bi then 0 else bi
  (⟨s.delay, buffer, bi⟩, buffer bi)

/-- `Delay::process_block` from `src/instrument/mod.rs`, on the flat sample
sequence of input stream 0 (consecutive blocks concatenate, see
`Delay.process_block_append`). -/
def Delay.process_block (s : Delay) : List ℚ → Delay × List ℚ
  | [] => (s, [])
  | x :: xs =>
      let r := Delay.step s x
      let rest := Delay.process_block r.1 xs
      (rest.1, r.2 :: rest.2)

/-- Feeding consecutive blocks is the same as feeding their concatenation. -/
theorem Delay.process_block_append (s : Delay) (xs ys : List ℚ) :
    Delay.process_block s (xs ++ ys) =
      ((Delay.process_block (Delay.process_block s xs).1 ys).1,
        (Delay.process_block s xs).2 ++ (Delay.process_block (Delay.process_block s xs).1 ys).2) := by
  induction xs generalizing s with
  | nil => simp [Delay.process_block]
  | cons x xs ih => simp [Delay.process_block, ih]

/-- Reference model of the delay line: a shift register holding the
`delay + 1` most recent ring contents, read at the head. -/
def shiftRun (q : List ℚ) : List ℚ → List ℚ
  | [] => []
  | x :: xs =>
      let q2 := q.tail ++ [x]
      q2.headD 0 :: shiftRun q2 xs

/-- Simulation relation between a concrete `Delay` state and the shift
register view: the register lists the ring buffer starting at the current
buffer index. -/
def DelaySim (d : ℕ) (s : Delay) (q : List ℚ) : Prop :=
  s.delay = d ∧ s.buffer_index ≤ d ∧ q.length = d + 1 ∧
    ∀ i, i ≤ d → q.getD i 0 = s.buffer ((s.buffer_index + i) % (d + 1))

theorem Delay.step_sim (d : ℕ) (s : Delay) (q : List ℚ) (x : ℚ) (h : DelaySim d s q) :
    DelaySim d (Delay.step s x).1 (q.tail ++ [x]) ∧
      (Delay.step s x).2 = (q.tail ++ [x]).headD 0 := by
  obtain ⟨hdel, hbi, hlen, hbuf⟩ := h
  have htail : q.tail.length = d := by
    rw [List.length_tail, hlen]
    omega
  have hbistep : (Delay.step s x).1.buffer_index =
      (if s.delay < s.buffer_index + 1 then 0 else s.buffer_index + 1) := rfl
  have hbi2 : (Delay.step s x).1.buffer_index = (s.buffer_index + 1) % (d + 1) := by
    rw [hbistep, hdel, mod_two_span (s.buffer_index + 1) (d + 1) (by omega) (by omega)]
    split_ifs <;> omega
  have hbuf2 : (Delay.step s x).1.buffer = Function.update s.buffer s.buffer_index x := rfl
  have hdel2 : (Delay.step s x).1.delay = d := hdel
  have hkey : ∀ i, i ≤ d → (q.tail ++ [x]).getD i 0 =
      (Function.update s.buffer s.buffer_index x)
        (((s.buffer_index + 1) % (d + 1) + i) % (d + 1)) := by
    intro i hi
    have harg : ((s.buffer_index + 1) % (d + 1) + i) % (d + 1) =
        (s.buffer_index + 1 + i) % (d + 1) :=
      Nat.mod_add_mod (s.buffer_index + 1) (d + 1) i
    rcases lt_or_eq_of_le hi with hi2 | hi2
    · have hne : (s.buffer_index + 1 + i) % (d + 1) ≠ s.buffer_index := by
        rw [mod_two_span (s.buffer_index + 1 + i) (d + 1) (by omega) (by omega)]
        split_ifs <;> omega
      rw [getD_append_lt _ _ _ _ (by omega), getD_tail, hbuf (i + 1) (by omega), harg,
        show s.buffer_index + (i + 1) = s.buffer_index + 1 + i by omega,
        Function.update_apply, if_neg hne]
    · have heq : (s.buffer_index + 1 + i) % (d + 1) = s.buffer_index := by
        rw [mod_two_span (s.buffer_index + 1 + i) (d + 1) (by omega) (by omega)]
        split_ifs <;> omega
      rw [List.getD_append_right _ _ _ _ (by omega), htail,
        show i - d = 0 by omega, harg, heq, Function.update_same]
      rfl
  have hout : (Delay.step s x).2 = (q.tail ++ [x]).headD 0 := by
    rw [headD_eq_getD, hkey 0 (by omega)]
    show (Function.update s.buffer s.buffer_index x)
        (if s.delay < s.buffer_index + 1 then 0 else s.buffer_index + 1) = _
    congr 1
    rw [Nat.mod_add_mod, Nat.add_zero, hdel,
      mod_two_span (s.buffer_index + 1) (d + 1) (by omega) (by omega)]
    split_ifs <;> omega
  refine ⟨⟨hdel2, ?_, ?_, ?_⟩, hout⟩
  · rw [hbi2]
    have := Nat.mod_lt (s.buffer_index + 1) (show 0 < d + 1 by omega)
    omega
  · rw [List.length_append, htail]
    rfl
  · intro i hi
    rw [hbi2, hbuf2]
    exact hkey i hi

theorem Delay.process_block_sim (d : ℕ) (xs : List ℚ) :
    ∀ (s : Delay) (q : List ℚ), DelaySim d s q →
      (Delay.process_block s xs).2 = shiftRun q xs := by
  induction xs with
  | nil => intro s q h; rfl
  | cons x xs ih =>
      intro s q h
      obtain ⟨hsim, hout⟩ := Delay.step_sim d s q x h
      have h1 : (Delay.process_block s (x :: xs)).2 =
          (Delay.step s x).2 :: (Delay.process_block (Delay.step s x).1 xs).2 := rfl
      have h2 : shiftRun q (x :: xs) =
          (q.tail ++ [x]).headD 0 :: shiftRun (q.tail ++ [x]) xs := rfl
      rw [h1, h2, hout, ih (Delay.step s x).1 (q.tail ++ [x]) hsim]

theorem shiftRun_getD (xs : List ℚ) : ∀ (q : List ℚ) (n : ℕ), q ≠ [] → n < xs.length →
    (shiftRun q xs).getD n 0 = (q.tail ++ xs).getD n 0 := by
  induction xs with
  | nil => intro q n hq hn; simp at hn
  | cons x xs ih =>
      intro q n hq hn
      rw [shiftRun]
      cases n with
      | zero =>
          rw [List.getD_cons_zero, headD_eq_getD]
          rcases List.exists_cons_of_ne_nil hq with ⟨a, t, rfl⟩
          cases t with
          | nil => rfl
          | cons b t2 => rfl
      | succ n =>
          rw [List.getD_cons_succ, ih (q.tail ++ [x]) n (by simp) (by simpa using hn)]
          rcases List.exists_cons_of_ne_nil hq with ⟨a, t, rfl⟩
          simp only [List.tail_cons]
          cases t with
          | nil => simp
          | cons b t2 => simp

theorem delay_init_sim (d : ℕ) : DelaySim d (Delay.new d) (List.replicate (d + 1) 0) := by
  refine ⟨rfl, by simp [Delay.new], by simp, ?_⟩
  intro i hi
  rw [getD_replicate_lt _ _ _ _ (by omega)]
  rfl

/-- C9: the `Delay` instrument introduces exactly `delay` samples of
latency — starting from a fresh `Delay::new(delay)` (the `u16` delay is
below 65536), for every fed input sequence the output at sample position
`n` is the input at position `n - delay` when `n ≥ delay`, and `0.0` (the
initial buffer contents) when `n < delay`. -/
theorem c9_delay_latency (d : ℕ) (hd : d < 65536) (xs : List ℚ) (n : ℕ)
    (hn : n < xs.length) :
    ((Delay.process_block (Delay.new d) xs).2).getD n 0 =
      if d ≤ n then xs.getD (n - d) 0 else 0 := by
  rw [Delay.process_block_sim d xs (Delay.new d) (List.replicate (d + 1) 0)
    (delay_init_sim d)]
  rw [shiftRun_getD xs (List.replicate (d + 1) 0) n (by simp) hn]
  have htail : (List.replicate (d + 1) (0 : ℚ)).tail = List.replicate d 0 := by
    rw [List.replicate_succ, List.tail_cons]
  rw [htail]
  split_ifs with hdn
  · rw [List.getD_append_right _ _ _ _ (by simpa using hdn)]
    simp
  · rw [getD_append_lt _ _ _ _ (by simpa using not_le.mp hdn),
      getD_replicate_lt _ _ _ _ (not_le.mp hdn)]

/-- Witness for C9: with `delay = 1` and input `[3, 5]`, output sample 1 is
input sample 0 and output sample 0 is the initial zero. -/
theorem c9_delay_latency_witness :
    ((Delay.process_block (Delay.new 1) [3, 5]).2).getD 1 0 =
        (if (1 : ℕ) ≤ 1 then ([3, 5] : List ℚ).getD 0 0 else 0) ∧
      ((Delay.process_block (Delay.new 1) [3, 5]).2).getD 0 0 =
        (if (1 : ℕ) ≤ 0 then ([3, 5] : List ℚ).getD 0 0 else 0) := by
  constructor
  · have := c9_delay_latency 1 (by norm_num) [3, 5] 1 (by norm_num)
    simpa using this
  · have := c9_delay_latency 1 (by norm_num) [3, 5] 0 (by norm_num)
    simpa using this

/-! ### C3: the envelope's per-sample segment advance -/

/-- `LinearEnvelope` from `src/instrument/envelope.rs`.  `POINTS` is
`point_times.length`; `current_point` is `0` (off), `1..POINTS` (playing
that segment) or `POINTS + 1` (releasing). -/
structure LinearEnvelope where
  point_times : List ℕ
  point_gains : List ℚ
  release_time : ℕ
  current_point : ℕ
  current_time : ℕ
  current_note_gain : ℚ
  current_gain : ℚ

/-- `LinearEnvelope::new`: off, all dynamic state zero. -/
def LinearEnvelope.new (point_times : List ℕ) (point_gains : List ℚ)
    (release_time : ℕ) : LinearEnvelope :=
  ⟨point_times, point_gains, release_time, 0, 0, 0, 0⟩

/-- The post-sample advance loop of `LinearEnvelope::process_block`
(`while self.current_point < POINTS && self.point_times[self.current_point] == 0`,
`src/instrument/envelope.rs` lines 141–143). -/
def env_skip (times : List ℕ) (p : ℕ) : ℕ :=
  if h : p < times.length ∧ times.getD p 0 = 0 then env_skip times (p + 1) else p
termination_by times.length - p
decreasing_by exact Nat.sub_succ_lt_self _ _ h.1

/-- The `NoteOn` skip loop of `LinearEnvelope::process_block`
(`while POINTS > i && self.point_times[i - 1] == 0`, lines 92–94); note it
checks index `i - 1`, unlike the post-sample loop. -/
def env_skip_on (times : List ℕ) (i : ℕ) : ℕ :=
  if h : i < times.length ∧ times.getD (i - 1) 0 = 0 then env_skip_on times (i + 1) else i
termination_by times.length - i
decreasing_by exact Nat.sub_succ_lt_self _ _ h.1

/-- The control-command match of `LinearEnvelope::process_block`
(lines 83–110), for one command. -/
def env_handle_command {Note : Type} (e : LinearEnvelope) (cmd : NoteCommand Note) :
    LinearEnvelope :=
  match cmd.command_type with
  | NoteCommandType.noteOn =>
      let e1 :=
        { e with
            current_time := 0,
            current_note_gain := (cmd.velocity : ℚ) / 255,
            current_gain := 0 }
      let i := env_skip_on e1.point_times 1
      let e2 := { e1 with current_point := i }
      if 1 < i then { e2 with current_gain := e2.point_gains.getD (i - 2) 0 } else e2
  | NoteCommandType.noteOff =>
      if 0 < e.current_point ∧ e.current_point ≤ e.point_times.length then
        { e with current_point := e.point_times.length + 1, current_time := 0 }
      else e
  | NoteCommandType.noop => e

/-- One iteration of the per-sample output loop of
`LinearEnvelope::process_block` (lines 112–158): the emitted sample and the
updated envelope. -/
def env_emit_sample (e : LinearEnvelope) : LinearEnvelope × ℚ :=
  if e.current_point = 0 then
    (e, 0)
  else if e.current_point ≤ e.point_times.length then
    let prev_point_gain :=
      if 1 < e.current_point then e.point_gains.getD (e.current_point - 2) 0 else 0
    let point_time := e.point_times.getD (e.current_point - 1) 0
    let point_gain := e.point_gains.getD (e.current_point - 1) 0
    let gain_diff := point_gain - prev_point_gain
    let gain := if point_time = 0 then point_gain
      else prev_point_gain +
        gain_diff * (((min e.current_time point_time : ℕ) : ℚ) / (point_time : ℚ))
    let out := gain * e.current_note_gain
    let e1 := { e with current_gain := gain, current_time := e.current_time + 1 }
    let e2 :=
      if point_time ≤ e1.current_time then
        (let e3 :=
          if e1.current_point < e1.point_times.length then
            ({ e1 with current_point := e1.current_point + 1, current_time := 0 })
          else e1
        { e3 with current_point := env_skip e3.point_times e3.current_point })
      else e1
    (e2, out)
  else
    let e0 := if e.point_times.length = 0 then { e with current_gain := 1 } else e
    let gain := if e0.release_time = 0 then 0
      else e0.current_gain * (1 - (e0.current_time : ℚ) / (e0.release_time : ℚ))
    let out := gain * e0.current_note_gain
    let e1 := { e0 with current_time := e0.current_time + 1 }
    let e2 :=
      if e1.release_time ≤ e1.current_time then
        ({ e1 with current_point := 0, current_time := 0 })
      else e1
    (e2, out)

/-- The sample loop of `LinearEnvelope::process_block`, `n` samples. -/
def env_emit_block (e : LinearEnvelope) : ℕ → LinearEnvelope × List ℚ
  | 0 => (e, [])
  | n + 1 =>
      let r := env_emit_sample e
      let rest := env_emit_block r.1 n
      (rest.1, r.2 :: rest.2)

/-- `LinearEnvelope::process_block`: handle all control commands of the
block (all logically at block start), then emit `blockSize` samples. -/
def LinearEnvelope.process_block {Note : Type} (e : LinearEnvelope)
    (cmds : List (NoteCommand Note)) (blockSize : ℕ) : LinearEnvelope × List ℚ :=
  env_emit_block (cmds.foldl env_handle_command e) blockSize

theorem env_skip_props_aux : ∀ (k : ℕ) (times : List ℕ) (p : ℕ), times.length - p ≤ k →
    p ≤ env_skip times p ∧
    (p ≤ times.length → env_skip times p ≤ times.length) ∧
    ¬(env_skip times p < times.length ∧ times.getD (env_skip times p) 0 = 0) := by
  intro k
  induction k with
  | zero =>
      intro times p hk
      rw [env_skip, dif_neg (by rintro ⟨hlt, _⟩; omega)]
      exact ⟨le_rfl, fun hp => hp, by rintro ⟨hlt, _⟩; omega⟩
  | succ k ih =>
      intro times p hk
      rw [env_skip]
      by_cases hc : p < times.length ∧ times.getD p 0 = 0
      · rw [dif_pos hc]
        have hplen := hc.1
        obtain ⟨ha, hb, hs⟩ := ih times (p + 1) (by omega)
        exact ⟨by omega, fun hp => hb (by omega), hs⟩
      · rw [dif_neg hc]
        exact ⟨le_rfl, fun hp => hp, hc⟩

theorem env_skip_ge (times : List ℕ) (p : ℕ) : p ≤ env_skip times p :=
  (env_skip_props_aux (times.length - p) times p le_rfl).1

theorem env_skip_le (times : List ℕ) (p : ℕ) (h : p ≤ times.length) :
    env_skip times p ≤ times.length :=
  (env_skip_props_aux (times.length - p) times p le_rfl).2.1 h

theorem env_skip_stop (times : List ℕ) (p : ℕ) :
    ¬(env_skip times p < times.length ∧ times.getD (env_skip times p) 0 = 0) :=
  (env_skip_props_aux (times.length - p) times p le_rfl).2.2

/-- A playing envelope right after a `NoteOn` at full velocity: segment
durations `[1, 0, 1]`, the first segment current. -/
def envC3 : LinearEnvelope := ⟨[1, 0, 1], [1, 1, 1], 10, 1, 0, 1, 0⟩

/-- Counterexample to C3 as stated: on durations `[1, 0, 1]`, finishing
segment 1 moves the envelope to segment 2 — a zero-duration segment — even
though the next segment with nonzero duration is segment 3, because the
skip loop reads `point_times[current_point]` (the following segment's
duration) rather than the advanced segment's own duration. -/
theorem c3_counterexample :
    (env_emit_sample envC3).1.current_point = 2 ∧
    envC3.point_times.getD (2 - 1) 0 = 0 ∧
    envC3.point_times.getD (3 - 1) 0 ≠ 0 := by
  refine ⟨?_, by norm_num [envC3], by norm_num [envC3]⟩
  rw [show (env_emit_sample envC3).1.current_point
      = env_skip [1, 0, 1] 2 from by norm_num [env_emit_sample, envC3]]
  rw [env_skip]
  norm_num

/-- C3 amended: for a `LinearEnvelope` in a playing segment, after emitting
a sample `current_time` is incremented; if it has reached the current
segment's duration then, at the last segment, the envelope remains there
(sustain, `current_time` keeps counting) until a `NoteOff`; otherwise it
advances to the next segment (resetting `current_time`) and then further
advances while the segment after the current one exists and has zero
duration — so afterwards the current segment is either the last or one whose
successor has nonzero duration, and the new current segment may itself have
zero duration (it is not skipped; it will emit one sample). -/
theorem c3_envelope_advance_amended (e : LinearEnvelope)
    (h1 : 1 ≤ e.current_point) (h2 : e.current_point ≤ e.point_times.length) :
    (env_emit_sample e).1.point_times = e.point_times ∧
    (e.current_time + 1 < e.point_times.getD (e.current_point - 1) 0 →
      (env_emit_sample e).1.current_point = e.current_point ∧
      (env_emit_sample e).1.current_time = e.current_time + 1) ∧
    (e.point_times.getD (e.current_point - 1) 0 ≤ e.current_time + 1 →
      (e.current_point = e.point_times.length →
        (env_emit_sample e).1.current_point = e.current_point ∧
        (env_emit_sample e).1.current_time = e.current_time + 1) ∧
      (e.current_point < e.point_times.length →
        (env_emit_sample e).1.current_point = env_skip e.point_times (e.current_point + 1) ∧
        (env_emit_sample e).1.current_time = 0 ∧
        e.current_point < (env_emit_sample e).1.current_point ∧
        (env_emit_sample e).1.current_point ≤ e.point_times.length ∧
        ((env_emit_sample e).1.current_point = e.point_times.length ∨
          e.point_times.getD (env_emit_sample e).1.current_point 0 ≠ 0))) := by
  have hne : ¬ e.current_point = 0 := by omega
  refine ⟨?_, ?_, ?_⟩
  · simp only [env_emit_sample, if_neg hne, if_pos h2]
    split_ifs <;> rfl
  · intro hlt
    simp only [env_emit_sample, if_neg hne, if_pos h2]
    rw [if_neg (by omega)]
    exact ⟨rfl, rfl⟩
  · intro hge
    constructor
    · intro hcpeq
      simp only [env_emit_sample, if_neg hne, if_pos h2]
      rw [if_pos (by omega), if_neg (by omega)]
      constructor
      · show env_skip e.point_times e.current_point = e.current_point
        rw [env_skip, dif_neg (by rintro ⟨hl, _⟩; omega)]
      · rfl
    · intro hcplt
      simp only [env_emit_sample, if_neg hne, if_pos h2]
      rw [if_pos (by omega), if_pos (by simpa using hcplt)]
      refine ⟨rfl, rfl, ?_, ?_, ?_⟩
      · show e.current_point < env_skip e.point_times (e.current_point + 1)
        have := env_skip_ge e.point_times (e.current_point + 1)
        omega
      · show env_skip e.point_times (e.current_point + 1) ≤ e.point_times.length
        exact env_skip_le _ _ (by omega)
      · have hstop := env_skip_stop e.point_times (e.current_point + 1)
        have hle := env_skip_le e.point_times (e.current_point + 1) (by omega)
        rcases eq_or_lt_of_le hle with heq | hlt2
        · exact Or.inl heq
        · exact Or.inr (fun h0 => hstop ⟨hlt2, h0⟩)

/-- Witness for the amended C3 on the concrete `[1, 0, 1]` envelope:
finishing segment 1 lands on `env_skip [1,0,1] 2 = 2` with `current_time`
reset to 0. -/
theorem c3_envelope_advance_amended_witness :
    (env_emit_sample envC3).1.point_times = envC3.point_times ∧
    (env_emit_sample envC3).1.current_point
      = env_skip envC3.point_times (envC3.current_point + 1) ∧
    (env_emit_sample envC3).1.current_time = 0 := by
  obtain ⟨hpt, hlt, hge⟩ := c3_envelope_advance_amended envC3 (by norm_num [envC3])
    (by norm_num [envC3])
  have h := (hge (by norm_num [envC3])).2 (by norm_num [envC3])
  exact ⟨hpt, h.1, h.2.1⟩

/-! ### The graph scheduler (`src/graph.rs`) -/

/-- `ValueStreamConnection` from `src/graph.rs`. -/
structure ValueStreamConnection where
  source_index : ℕ
  source_stream_index : ℕ
  destination_stream_index : ℕ
deriving DecidableEq, Repr

/-- `ControlStreamConnection` from `src/graph.rs`. -/
structure ControlStreamConnection where
  source_index : ℕ
deriving DecidableEq, Repr

/-- `DestinationConnection` from `src/graph.rs`. -/
structure DestinationConnection where
  source_index : ℕ
  source_stream_index : ℕ
deriving DecidableEq, Repr

/-- A `ControlStreamSource` trait object: a schedule of control blocks and a
cursor; `fetch_next_stream` advances the cursor, `get_control_stream` reads
the current block. -/
structure ControlSource (Note : Type) where
  streams : ℕ → List (NoteCommand Note)
  pos : ℕ

/-- `get_control_stream()` of a control source. -/
def ControlSource.get_control_stream {Note : Type} (s : ControlSource Note) :
    List (NoteCommand Note) :=
  s.streams s.pos

/-- `fetch_next_stream()` of a control source. -/
def ControlSource.fetch_next_stream {Note : Type} (s : ControlSource Note) :
    ControlSource Note :=
  { s with pos := s.pos + 1 }

/-- The state of the `get_instrument_process_order` loop: the `order`
entries written so far (the Rust array holds `usize::MAX` beyond
`order_index = order.length`) and the `processed` flags. -/
structure SchedState where
  order : List ℕ
  processed : List Bool
deriving DecidableEq, Repr

/-- The loop state at entry: empty order, nothing processed. -/
def schedInit (n : ℕ) : SchedState :=
  ⟨[], List.replicate n false⟩

/-- The `all_processed` check of `get_instrument_process_order`
(`src/graph.rs` lines 153–160): every `Some` connection in slot `i`'s row
has a processed source. -/
def allDepsProcessed (row : List (Option ValueStreamConnection))
    (processed : List Bool) : Bool :=
  row.all fun oc => match oc with
    | none => true
    | some c => processed.getD c.source_index false

/-- One iteration of the inner `for i in 0..SIZE` scan (lines 148–171):
skip a processed slot, otherwise mark it processed and append it to the
order when all of its dependencies are processed. -/
def schedStep (rows : List (List (Option ValueStreamConnection)))
    (st : SchedState) (i : ℕ) : SchedState :=
  if st.processed.getD i false then st
  else if allDepsProcessed (rows.getD i []) st.processed then
    ⟨st.order ++ [i], st.processed.set i true⟩
  else st

/-- One full inner scan over all `SIZE` slots. -/
def schedPass (n : ℕ) (rows : List (List (Option ValueStreamConnection)))
    (st : SchedState) : SchedState :=
  (List.range n).foldl (schedStep rows) st

/-- The outer unbounded `loop` of `get_instrument_process_order` (line 147),
run for at most `fuel` passes; the `order_index == SIZE` check (line 167)
is the loop's only exit, and it runs only right after a slot is appended,
so it can fire only once the order is nonempty — in particular a `SIZE = 0`
run never executes the check at all and never returns.  (The Rust code
returns mid-pass the moment the check fires; finishing the pass instead
changes nothing, because every slot is then processed and `schedStep` is
the identity, so the exit test here sits between passes with the
order-nonempty guard recording that an append must have happened.) -/
def schedLoop (n : ℕ) (rows : List (List (Option ValueStreamConnection))) :
    ℕ → SchedState → SchedState
  | 0, st => st
  | fuel + 1, st =>
      if st.order.length = n ∧ st.order ≠ [] then st
      else schedLoop n rows fuel (schedPass n rows st)

/-- With zero slots the inner `for` loop has an empty range: a pass is the
identity. -/
theorem schedPass_zero (rows : List (List (Option ValueStreamConnection)))
    (st : SchedState) : schedPass 0 rows st = st := by
  simp [schedPass]

/-- With zero slots no append ever happens, so the exit test never runs and
no pass changes the state: the scan loop of a `SIZE = 0` graph spins
forever, its state frozen. -/
theorem schedLoop_zero (rows : List (List (Option ValueStreamConnection))) :
    ∀ (fuel : ℕ) (st : SchedState), schedLoop 0 rows fuel st = st := by
  intro fuel
  induction fuel with
  | zero => intro st; rfl
  | succ fuel ih =>
      intro st
      rw [schedLoop]
      split_ifs with hc
      · rfl
      · rw [schedPass_zero]
        exact ih st

theorem order_nonempty_of_complete (n : ℕ) (st : SchedState)
    (h : st.order.length = n) (hn : 0 < n) : st.order ≠ [] := by
  intro he
  rw [he] at h
  simp at h
  omega

/-- The value-stream dependency relation of a connection table: `u` is the
source of some connection into slot `v`. -/
def hasEdge (rows : List (List (Option ValueStreamConnection))) (u v : ℕ) : Prop :=
  ∃ c, some c ∈ rows.getD v [] ∧ c.source_index = u

theorem hasEdge_lt (rows : List (List (Option ValueStreamConnection))) (u v : ℕ)
    (h : hasEdge rows u v) : v < rows.length := by
  by_contra hv
  obtain ⟨c, hc, _⟩ := h
  rw [List.getD_eq_default _ _ (by omega)] at hc
  exact absurd hc (List.not_mem_nil _)

/-- The loop invariant of `get_instrument_process_order`. -/
def SchedInv (n : ℕ) (rows : List (List (Option ValueStreamConnection)))
    (st : SchedState) : Prop :=
  st.processed.length = n ∧
  st.order.Nodup ∧
  (∀ i ∈ st.order, i < n) ∧
  (∀ i, st.processed.getD i false = true ↔ i ∈ st.order) ∧
  st.order.length = st.processed.count true ∧
  ∀ v ∈ st.order, ∀ u, hasEdge rows u v → [u, v].Sublist st.order

theorem count_set_true (l : List Bool) (i : ℕ) (h : l.getD i false = false)
    (hi : i < l.length) : (l.set i true).count true = l.count true + 1 := by
  induction l generalizing i with
  | nil => simp at hi
  | cons b t ih =>
      cases i with
      | zero =>
          simp only [List.getD_cons_zero] at h
          subst h
          simp [List.count_cons]
      | succ i =>
          simp only [List.getD_cons_succ] at h
          simp only [List.set_cons_succ, List.count_cons]
          rw [ih i h (by simpa using hi)]
          omega

theorem nodup_append_single {α : Type} (l : List α) (x : α) (h : l.Nodup) (hx : x ∉ l) :
    (l ++ [x]).Nodup := by
  rw [List.nodup_append]
  refine ⟨h, List.nodup_singleton x, ?_⟩
  intro a ha hax
  rw [List.mem_singleton] at hax
  subst hax
  exact hx ha

theorem getD_set_true_mono (l : List Bool) (i j : ℕ) (h : l.getD j false = true) :
    (l.set i true).getD j false = true := by
  have hj : j < l.length := by
    by_contra hc
    rw [List.getD_eq_default _ _ (by omega)] at h
    simp at h
  by_cases hij : i = j
  · subst hij
    rw [getD_set_self _ _ _ _ hj]
  · rw [getD_set_ne _ _ _ _ _ hij]
    exact h

theorem schedStep_processed_length (rows : List (List (Option ValueStreamConnection)))
    (st : SchedState) (i : ℕ) :
    (schedStep rows st i).processed.length = st.processed.length := by
  unfold schedStep
  split_ifs <;> simp

theorem schedStep_processed_mono (rows : List (List (Option ValueStreamConnection)))
    (st : SchedState) (i j : ℕ) (h : st.processed.getD j false = true) :
    (schedStep rows st i).processed.getD j false = true := by
  unfold schedStep
  split_ifs <;> first
    | exact h
    | exact getD_set_true_mono _ _ _ h

theorem allDepsProcessed_mono (row : List (Option ValueStreamConnection))
    (p1 p2 : List Bool) (h : ∀ j, p1.getD j false = true → p2.getD j false = true)
    (hall : allDepsProcessed row p1 = true) : allDepsProcessed row p2 = true := by
  rw [allDepsProcessed, List.all_eq_true] at hall ⊢
  intro oc hoc
  cases oc with
  | none => rfl
  | some c => exact h _ (hall _ hoc)

theorem schedStep_order_extends (rows : List (List (Option ValueStreamConnection)))
    (st : SchedState) (i : ℕ) :
    (schedStep rows st i).order = st.order ∨ (schedStep rows st i).order = st.order ++ [i] := by
  unfold schedStep
  split_ifs <;> simp

theorem foldl_schedStep_order_extends (rows : List (List (Option ValueStreamConnection)))
    (l : List ℕ) : ∀ st, ∃ ext, (l.foldl (schedStep rows) st).order = st.order ++ ext := by
  induction l with
  | nil => intro st; exact ⟨[], by simp⟩
  | cons a t ih =>
      intro st
      obtain ⟨ext, hext⟩ := ih (schedStep rows st a)
      rcases schedStep_order_extends rows st a with h | h
      · exact ⟨ext, by rw [List.foldl_cons, hext, h]⟩
      · exact ⟨[a] ++ ext, by rw [List.foldl_cons, hext, h, List.append_assoc]⟩

theorem foldl_schedStep_processed_length (rows : List (List (Option ValueStreamConnection)))
    (l : List ℕ) : ∀ st, (l.foldl (schedStep rows) st).processed.length = st.processed.length := by
  induction l with
  | nil => intro st; rfl
  | cons a t ih =>
      intro st
      rw [List.foldl_cons, ih, schedStep_processed_length]

theorem foldl_schedStep_processed_mono (rows : List (List (Option ValueStreamConnection)))
    (l : List ℕ) : ∀ st j, st.processed.getD j false = true →
      (l.foldl (schedStep rows) st).processed.getD j false = true := by
  induction l with
  | nil => intro st j h; exact h
  | cons a t ih =>
      intro st j h
      rw [List.foldl_cons]
      exact ih _ j (schedStep_processed_mono rows st a j h)

theorem foldl_schedStep_processes (rows : List (List (Option ValueStreamConnection)))
    (l : List ℕ) : ∀ st (u : ℕ), u ∈ l → u < st.processed.length →
      allDepsProcessed (rows.getD u []) st.processed = true →
      (l.foldl (schedStep rows) st).processed.getD u false = true := by
  induction l with
  | nil => intro st u hu; cases hu
  | cons a t ih =>
      intro st u hu hlen hdeps
      rw [List.foldl_cons]
      by_cases hau : a = u
      · subst hau
        have hstep : (schedStep rows st a).processed.getD a false = true := by
          unfold schedStep
          split_ifs with hp
          · exact hp
          · exact getD_set_self _ _ _ _ hlen
        exact foldl_schedStep_processed_mono rows t _ a hstep
      · rcases List.mem_cons.mp hu with h | h
        · exact absurd h.symm hau
        · exact ih (schedStep rows st a) u h
            (by rw [schedStep_processed_length]; exact hlen)
            (allDepsProcessed_mono _ _ _
              (fun j => schedStep_processed_mono rows st a j) hdeps)

theorem schedStep_inv (n : ℕ) (rows : List (List (Option ValueStreamConnection)))
    (st : SchedState) (i : ℕ) (hi : i < n) (hinv : SchedInv n rows st) :
    SchedInv n rows (schedStep rows st i) := by
  obtain ⟨h1, h2, h3, h4, h5, h6⟩ := hinv
  unfold schedStep
  split_ifs with hproc hdeps
  · exact ⟨h1, h2, h3, h4, h5, h6⟩
  · have hni : i ∉ st.order := fun hmem => hproc ((h4 i).mpr hmem)
    have hproc2 : st.processed.getD i false = false := by
      cases hval : st.processed.getD i false with
      | false => rfl
      | true => exact absurd hval hproc
    refine ⟨by simpa using h1, nodup_append_single _ _ h2 hni, ?_, ?_, ?_, ?_⟩
    · intro j hj
      rcases List.mem_append.mp hj with hj2 | hj2
      · exact h3 j hj2
      · rw [List.mem_singleton.mp hj2]; exact hi
    · intro j
      by_cases hij : i = j
      · subst hij
        rw [getD_set_self _ _ _ _ (by omega)]
        simp
      · rw [getD_set_ne _ _ _ _ _ hij, h4 j]
        constructor
        · intro hm; exact List.mem_append.mpr (Or.inl hm)
        · intro hm
          rcases List.mem_append.mp hm with hm2 | hm2
          · exact hm2
          · exact absurd (List.mem_singleton.mp hm2).symm hij
    · rw [List.length_append, count_set_true _ _ hproc2 (by omega)]
      simp [h5]
    · intro v hv u hedge
      rcases List.mem_append.mp hv with hv2 | hv2
      · exact (h6 v hv2 u hedge).trans (List.sublist_append_left _ _)
      · rw [List.mem_singleton.mp hv2] at hedge ⊢
        obtain ⟨c, hc, hcs⟩ := hedge
        have hdep : st.processed.getD c.source_index false = true := by
          rw [allDepsProcessed, List.all_eq_true] at hdeps
          exact hdeps _ hc
        rw [hcs] at hdep
        have hu : u ∈ st.order := (h4 u).mp hdep
        have hsub : ([u] ++ [i]).Sublist (st.order ++ [i]) :=
          List.Sublist.append (List.singleton_sublist.mpr hu) (List.Sublist.refl [i])
        simpa using hsub
  · exact ⟨h1, h2, h3, h4, h5, h6⟩

theorem schedInit_inv (n : ℕ) (rows : List (List (Option ValueStreamConnection))) :
    SchedInv n rows (schedInit n) := by
  refine ⟨by simp [schedInit], List.nodup_nil, by simp [schedInit], ?_, ?_, by simp [schedInit]⟩
  · intro i
    simp only [schedInit, List.not_mem_nil, iff_false]
    intro hc
    by_cases hi : i < n
    · rw [List.getD_eq_getElem _ _ (by simpa using hi)] at hc
      simp at hc
    · rw [List.getD_eq_default _ _ (by simpa using not_lt.mp hi)] at hc
      simp at hc
  · simp [schedInit, List.count_replicate]

theorem foldl_schedStep_inv (n : ℕ) (rows : List (List (Option ValueStreamConnection)))
    (l : List ℕ) : ∀ st, (∀ i ∈ l, i < n) → SchedInv n rows st →
      SchedInv n rows (l.foldl (schedStep rows) st) := by
  induction l with
  | nil => intro st hl h; exact h
  | cons a t ih =>
      intro st hl h
      rw [List.foldl_cons]
      exact ih _ (fun i hi => hl i (List.mem_cons_of_mem a hi))
        (schedStep_inv n rows st a (hl a (List.mem_cons_self a t)) h)

theorem schedPass_inv (n : ℕ) (rows : List (List (Option ValueStreamConnection)))
    (st : SchedState) (h : SchedInv n rows st) : SchedInv n rows (schedPass n rows st) :=
  foldl_schedStep_inv n rows (List.range n) st (fun i hi => List.mem_range.mp hi) h

theorem schedLoop_inv (n : ℕ) (rows : List (List (Option ValueStreamConnection))) :
    ∀ (fuel : ℕ) (st), SchedInv n rows st → SchedInv n rows (schedLoop n rows fuel st) := by
  intro fuel
  induction fuel with
  | zero => intro st h; exact h
  | succ fuel ih =>
      intro st h
      rw [schedLoop]
      split_ifs with hc
      · exact h
      · exact ih _ (schedPass_inv n rows st h)

theorem getD_replicate_false (n v : ℕ) : (List.replicate n false).getD v false = false := by
  by_cases h : v < n
  · rw [List.getD_eq_getElem _ _ (by simpa using h)]
    simp
  · rw [List.getD_eq_default _ _ (by simpa using not_lt.mp h)]

theorem complete_all_mem (n : ℕ) (l : List ℕ) (hlen : l.length = n) (hnd : l.Nodup)
    (hlt : ∀ i ∈ l, i < n) (i : ℕ) (hi : i < n) : i ∈ l := by
  have hsub : l.toFinset ⊆ Finset.range n := by
    intro x hx
    exact Finset.mem_range.mpr (hlt x (List.mem_toFinset.mp hx))
  have hcard : l.toFinset.card = n := by
    rw [List.toFinset_card_of_nodup hnd, hlen]
  have heq : l.toFinset = Finset.range n :=
    Finset.eq_of_subset_of_card_le hsub (by rw [hcard, Finset.card_range])
  rw [← List.mem_toFinset, heq]
  exact Finset.mem_range.mpr hi

theorem schedPass_progress (n : ℕ) (rows : List (List (Option ValueStreamConnection)))
    (st : SchedState)
    (hwf : ∀ u v, hasEdge rows u v → u < n)
    (hacyc : ∀ u, ¬ Relation.TransGen (hasEdge rows) u u)
    (hinv : SchedInv n rows st) (hincomp : st.order.length ≠ n) :
    st.order.length < (schedPass n rows st).order.length := by
  obtain ⟨h1, h2, h3, h4, h5, h6⟩ := hinv
  have hcle : st.processed.count true ≤ st.processed.length := List.count_le_length true _
  have hlt : st.order.length < n := by omega
  have hex : ∃ i, i < n ∧ st.processed.getD i false = false := by
    by_contra hall
    push_neg at hall
    have halltrue : ∀ i, i < n → st.processed.getD i false = true := by
      intro i hi
      cases hval : st.processed.getD i false with
      | false => exact absurd hval (hall i hi)
      | true => rfl
    have hcount : st.processed.count true = st.processed.length := by
      rw [List.count_eq_length]
      intro b hb
      obtain ⟨k, hk, hbk⟩ := List.mem_iff_getElem.mp hb
      have := halltrue k (by omega)
      rw [List.getD_eq_getElem _ _ hk, hbk] at this
      exact this.symm
    omega
  obtain ⟨i0, hi0n, hi0⟩ := hex
  let r : Fin n → Fin n → Prop := fun a b => Relation.TransGen (hasEdge rows) a.1 b.1
  haveI : IsTrans (Fin n) r := ⟨fun a b c hab hbc => hab.trans hbc⟩
  haveI : IsIrrefl (Fin n) r := ⟨fun a ha => hacyc a.1 ha⟩
  obtain ⟨m, hmS, hmmin⟩ := (Finite.wellFounded_of_trans_of_irrefl r).has_min
    {x : Fin n | st.processed.getD x.1 false = false} ⟨⟨i0, hi0n⟩, hi0⟩
  have hdeps : allDepsProcessed (rows.getD m.1 []) st.processed = true := by
    rw [allDepsProcessed, List.all_eq_true]
    intro oc hoc
    cases oc with
    | none => rfl
    | some c =>
        show st.processed.getD c.source_index false = true
        cases hval : st.processed.getD c.source_index false with
        | true => rfl
        | false =>
            exfalso
            have hedge : hasEdge rows c.source_index m.1 := ⟨c, hoc, rfl⟩
            have hsn : c.source_index < n := hwf _ _ hedge
            exact hmmin ⟨c.source_index, hsn⟩ hval (Relation.TransGen.single hedge)
  have hm1 : (schedPass n rows st).processed.getD m.1 false = true :=
    foldl_schedStep_processes rows (List.range n) st m.1 (List.mem_range.mpr m.2)
      (by omega) hdeps
  have hpassinv := schedPass_inv n rows st ⟨h1, h2, h3, h4, h5, h6⟩
  have hmmem : m.1 ∈ (schedPass n rows st).order := (hpassinv.2.2.2.1 m.1).mp hm1
  have hmnot : m.1 ∉ st.order := by
    intro hmem
    have := (h4 m.1).mpr hmem
    rw [hmS] at this
    exact Bool.noConfusion this
  obtain ⟨ext, hext⟩ := foldl_schedStep_order_extends rows (List.range n) st
  have hmext : m.1 ∈ ext := by
    have hm2 : m.1 ∈ st.order ++ ext := by
      rw [← hext]
      exact hmmem
    rcases List.mem_append.mp hm2 with h | h
    · exact absurd h hmnot
    · exact h
  have hextne : ext ≠ [] := by
    intro he
    rw [he] at hmext
    exact absurd hmext (List.not_mem_nil _)
  have hlen2 : (schedPass n rows st).order.length = st.order.length + ext.length := by
    rw [show (schedPass n rows st).order = st.order ++ ext from hext, List.length_append]
  have hextpos : 0 < ext.length := List.length_pos.mpr hextne
  omega

theorem schedLoop_completes_aux (n : ℕ) (rows : List (List (Option ValueStreamConnection)))
    (hwf : ∀ u v, hasEdge rows u v → u < n)
    (hacyc : ∀ u, ¬ Relation.TransGen (hasEdge rows) u u) :
    ∀ (fuel : ℕ) (st), SchedInv n rows st → n ≤ st.order.length + fuel →
      (schedLoop n rows fuel st).order.length = n := by
  intro fuel
  induction fuel with
  | zero =>
      intro st hinv hfuel
      have hcle : st.processed.count true ≤ st.processed.length := List.count_le_length true _
      have h1 := hinv.1
      have h5 := hinv.2.2.2.2.1
      show st.order.length = n
      omega
  | succ fuel ih =>
      intro st hinv hfuel
      rw [schedLoop]
      split_ifs with hc
      · exact hc.1
      · by_cases hlen : st.order.length = n
        · have hnil : st.order = [] := by
            by_contra hne
            exact hc ⟨hlen, hne⟩
          have hn0 : n = 0 := by rw [← hlen, hnil]; rfl
          subst hn0
          rw [schedPass_zero, schedLoop_zero]
          exact hlen
        · have hprog := schedPass_progress n rows st hwf hacyc hinv hlen
          exact ih _ (schedPass_inv n rows st hinv) (by omega)

theorem schedLoop_completes (n : ℕ) (rows : List (List (Option ValueStreamConnection)))
    (hwf : ∀ u v, hasEdge rows u v → u < n)
    (hacyc : ∀ u, ¬ Relation.TransGen (hasEdge rows) u u) :
    (schedLoop n rows n (schedInit n)).order.length = n :=
  schedLoop_completes_aux n rows hwf hacyc n (schedInit n) (schedInit_inv n rows)
    (by simp [schedInit])

theorem schedLoop_of_complete (n : ℕ) (rows : List (List (Option ValueStreamConnection)))
    (st : SchedState) (h : st.order.length = n) :
    ∀ fuel, schedLoop n rows fuel st = st := by
  intro fuel
  rcases Nat.eq_zero_or_pos n with hn0 | hnpos
  · subst hn0
    exact schedLoop_zero rows fuel st
  · cases fuel with
    | zero => rfl
    | succ fuel =>
        rw [schedLoop, if_pos ⟨h, order_nonempty_of_complete n st h hnpos⟩]

theorem schedLoop_add (n : ℕ) (rows : List (List (Option ValueStreamConnection))) :
    ∀ (a b : ℕ) (st), schedLoop n rows (a + b) st = schedLoop n rows b (schedLoop n rows a st) := by
  intro a
  induction a with
  | zero =>
      intro b st
      rw [Nat.zero_add]
      rfl
  | succ a ih =>
      intro b st
      rw [show a + 1 + b = (a + b) + 1 by omega, schedLoop]
      by_cases hc : st.order.length = n ∧ st.order ≠ []
      · rw [if_pos hc, schedLoop_of_complete n rows st hc.1 (a + 1),
          schedLoop_of_complete n rows st hc.1 b]
      · rw [if_neg hc, ih b (schedPass n rows st)]
        have hrw : schedLoop n rows (a + 1) st = schedLoop n rows a (schedPass n rows st) := by
          rw [schedLoop, if_neg hc]
        rw [hrw]

theorem schedLoop_one (n : ℕ) (rows : List (List (Option ValueStreamConnection)))
    (st : SchedState) :
    schedLoop n rows 1 st =
      if st.order.length = n ∧ st.order ≠ [] then st else schedPass n rows st := by
  rw [schedLoop]
  split_ifs <;> rfl

theorem schedStep_eq_or (rows : List (List (Option ValueStreamConnection)))
    (st : SchedState) (i : ℕ) :
    schedStep rows st i = st ∨ (schedStep rows st i).order.length = st.order.length + 1 := by
  unfold schedStep
  split_ifs
  · exact Or.inl rfl
  · right
    simp
  · exact Or.inl rfl

theorem foldl_schedStep_eq_or (rows : List (List (Option ValueStreamConnection)))
    (l : List ℕ) : ∀ st, l.foldl (schedStep rows) st = st ∨
      st.order.length < (l.foldl (schedStep rows) st).order.length := by
  induction l with
  | nil => intro st; exact Or.inl rfl
  | cons a t ih =>
      intro st
      rw [List.foldl_cons]
      rcases schedStep_eq_or rows st a with h | h
      · rw [h]
        exact ih st
      · right
        obtain ⟨ext, hext⟩ := foldl_schedStep_order_extends rows t (schedStep rows st a)
        have : (t.foldl (schedStep rows) (schedStep rows st a)).order.length =
            (schedStep rows st a).order.length + ext.length := by
          rw [hext, List.length_append]
        omega

theorem schedPass_fix_or (n : ℕ) (rows : List (List (Option ValueStreamConnection)))
    (st : SchedState) :
    schedPass n rows st = st ∨ st.order.length < (schedPass n rows st).order.length :=
  foldl_schedStep_eq_or rows (List.range n) st

theorem schedLoop_stable_key (n : ℕ) (rows : List (List (Option ValueStreamConnection))) :
    schedLoop n rows (n + 1) (schedInit n) = schedLoop n rows n (schedInit n) := by
  rcases Nat.eq_zero_or_pos n with hn0 | hnpos
  · subst hn0
    simp only [schedLoop_zero]
  · by_cases hex : ∃ j, j < n ∧
        schedLoop n rows (j + 1) (schedInit n) = schedLoop n rows j (schedInit n)
    · obtain ⟨j, hj, hfix⟩ := hex
      have hstab : ∀ m, j ≤ m →
          schedLoop n rows m (schedInit n) = schedLoop n rows j (schedInit n) := by
        intro m hm
        induction m, hm using Nat.le_induction with
        | base => rfl
        | succ m hm2 ih =>
            rw [schedLoop_add n rows m 1 (schedInit n), ih,
              ← schedLoop_add n rows j 1 (schedInit n), hfix]
      rw [hstab (n + 1) (by omega), hstab n (by omega)]
    · push_neg at hex
      have hgrow : ∀ j, j ≤ n → j ≤ (schedLoop n rows j (schedInit n)).order.length := by
        intro j
        induction j with
        | zero => intro _; omega
        | succ j ih =>
            intro hjn
            have hne := hex j (by omega)
            have hone : schedLoop n rows (j + 1) (schedInit n) =
                schedLoop n rows 1 (schedLoop n rows j (schedInit n)) :=
              schedLoop_add n rows j 1 (schedInit n)
            by_cases hc : (schedLoop n rows j (schedInit n)).order.length = n
            · exact absurd (by
                rw [hone, schedLoop_one,
                  if_pos ⟨hc, order_nonempty_of_complete n _ hc hnpos⟩]) hne
            · rcases schedPass_fix_or n rows (schedLoop n rows j (schedInit n)) with hfix | hlt
              · exact absurd (by
                  rw [hone, schedLoop_one, if_neg (fun hand => hc hand.1), hfix]) hne
              · have hj2 := ih (by omega)
                rw [hone, schedLoop_one, if_neg (fun hand => hc hand.1)]
                omega
      have hn := hgrow n le_rfl
      have hinvn := schedLoop_inv n rows n (schedInit n) (schedInit_inv n rows)
      have hcle : (schedLoop n rows n (schedInit n)).processed.count true ≤
          (schedLoop n rows n (schedInit n)).processed.length := List.count_le_length true _
      have h1 := hinvn.1
      have h5 := hinvn.2.2.2.2.1
      have hcomp : (schedLoop n rows n (schedInit n)).order.length = n := by omega
      rw [schedLoop_add n rows n 1 (schedInit n), schedLoop_one,
        if_pos ⟨hcomp, order_nonempty_of_complete n _ hcomp hnpos⟩]

theorem schedLoop_stable (n : ℕ) (rows : List (List (Option ValueStreamConnection))) :
    ∀ fuel, n ≤ fuel →
      schedLoop n rows fuel (schedInit n) = schedLoop n rows n (schedInit n) := by
  intro fuel hfuel
  induction fuel, hfuel using Nat.le_induction with
  | base => rfl
  | succ fuel hf ih =>
      rw [schedLoop_add n rows fuel 1 (schedInit n), ih,
        ← schedLoop_add n rows n 1 (schedInit n)]
      exact schedLoop_stable_key n rows

/-- No slot lying on a dependency cycle is ever marked processed. -/
def CycFree (rows : List (List (Option ValueStreamConnection))) (st : SchedState) : Prop :=
  ∀ v, Relation.TransGen (hasEdge rows) v v → st.processed.getD v false = false

theorem cycle_has_cycle_pred (rows : List (List (Option ValueStreamConnection))) (v : ℕ)
    (h : Relation.TransGen (hasEdge rows) v v) :
    ∃ w, hasEdge rows w v ∧ Relation.TransGen (hasEdge rows) w w := by
  obtain ⟨b, hrb, hb⟩ := Relation.TransGen.tail'_iff.mp h
  exact ⟨b, hb, Relation.TransGen.head' hb hrb⟩

theorem schedStep_cycfree (rows : List (List (Option ValueStreamConnection)))
    (st : SchedState) (i : ℕ) (h : CycFree rows st) : CycFree rows (schedStep rows st i) := by
  unfold schedStep
  split_ifs with hp hd
  · exact h
  · intro v hv
    by_cases hiv : i = v
    · subst hiv
      exfalso
      obtain ⟨w, hwv, hww⟩ := cycle_has_cycle_pred rows i hv
      have hw := h w hww
      rw [allDepsProcessed, List.all_eq_true] at hd
      obtain ⟨c, hc, hcs⟩ := hwv
      have h2 : st.processed.getD c.source_index false = true := hd _ hc
      rw [hcs, hw] at h2
      exact Bool.noConfusion h2
    · show (st.processed.set i true).getD v false = false
      rw [getD_set_ne _ _ _ _ _ hiv]
      exact h v hv
  · exact h

theorem foldl_schedStep_cycfree (rows : List (List (Option ValueStreamConnection)))
    (l : List ℕ) : ∀ st, CycFree rows st → CycFree rows (l.foldl (schedStep rows) st) := by
  induction l with
  | nil => intro st h; exact h
  | cons a t ih =>
      intro st h
      rw [List.foldl_cons]
      exact ih _ (schedStep_cycfree rows st a h)

theorem schedLoop_cycfree (n : ℕ) (rows : List (List (Option ValueStreamConnection))) :
    ∀ (fuel : ℕ) (st), CycFree rows st → CycFree rows (schedLoop n rows fuel st) := by
  intro fuel
  induction fuel with
  | zero => intro st h; exact h
  | succ fuel ih =>
      intro st h
      rw [schedLoop]
      split_ifs with hc
      · exact h
      · exact ih _ (foldl_schedStep_cycfree rows (List.range n) st h)

theorem schedInit_cycfree (n : ℕ) (rows : List (List (Option ValueStreamConnection))) :
    CycFree rows (schedInit n) := by
  intro v hv
  exact getD_replicate_false n v

theorem schedLoop_cyclic_incomplete (n : ℕ)
    (rows : List (List (Option ValueStreamConnection)))
    (hwf : ∀ u v, hasEdge rows u v → u < n)
    (hcyc : ∃ u, Relation.TransGen (hasEdge rows) u u) :
    ∀ fuel, (schedLoop n rows fuel (schedInit n)).order.length ≠ n := by
  intro fuel hcontra
  obtain ⟨u, hu⟩ := hcyc
  have hun : u < n := by
    obtain ⟨b, hub, _⟩ := Relation.TransGen.head'_iff.mp hu
    exact hwf u b hub
  have hinv := schedLoop_inv n rows fuel (schedInit n) (schedInit_inv n rows)
  have hcf : CycFree rows (schedLoop n rows fuel (schedInit n)) :=
    schedLoop_cycfree n rows fuel (schedInit n) (schedInit_cycfree n rows)
  have hmem : u ∈ (schedLoop n rows fuel (schedInit n)).order :=
    complete_all_mem n _ hcontra hinv.2.1 hinv.2.2.1 u hun
  have htrue := (hinv.2.2.2.1 u).mpr hmem
  rw [hcf u hu] at htrue
  exact Bool.noConfusion htrue

/-! ### The instrument graph (`src/graph.rs`) -/

/-- `InstrumentGraph` from `src/graph.rs`.  The const generics become list
lengths: `SIZE = instruments.length`, `CONTROL_SIZE = control_sources.length`,
`CONNECTION_SIZE` the row lengths, `OUTPUT_CHANNELS = output_channels.length`;
`new` builds all tables at matching lengths. -/
structure InstrumentGraph (Note : Type) where
  instruments : List (Option (Container Note))
  control_sources : List (Option (ControlSource Note))
  instruments_control_sources : List (Option ControlStreamConnection)
  value_stream_connections : List (List (Option ValueStreamConnection))
  destination_connections : List (List (Option DestinationConnection))
  output_channels : List (List ℚ)

/-- First index holding `None` — the slot scans of `add_instrument`,
`add_control_source`, `connect_value_stream` and `connect_destination`. -/
def firstFreeIdx {α : Type} : List (Option α) → Option ℕ
  | [] => none
  | none :: _ => some 0
  | some _ :: t => (firstFreeIdx t).map (fun i => i + 1)

theorem firstFreeIdx_eq_none_iff {α : Type} (l : List (Option α)) :
    firstFreeIdx l = none ↔ ∀ o ∈ l, o.isSome = true := by
  induction l with
  | nil => simp [firstFreeIdx]
  | cons a t ih =>
      cases a with
      | none => simp [firstFreeIdx]
      | some x =>
          simp only [firstFreeIdx, Option.map_eq_none', ih]
          constructor
          · intro h o ho
            rcases List.mem_cons.mp ho with rfl | ho2
            · rfl
            · exact h o ho2
          · intro h o ho
            exact h o (List.mem_cons_of_mem _ ho)

namespace InstrumentGraph

variable {Note : Type} [Inhabited Note]

/-- `InstrumentGraph::new()`: all slots empty, all connection tables empty,
output channels zeroed. -/
def new (SIZE CONTROL_SIZE CONNECTION_SIZE OUTPUT_CHANNELS : ℕ) : InstrumentGraph Note where
  instruments := List.replicate SIZE none
  control_sources := List.replicate CONTROL_SIZE none
  instruments_control_sources := List.replicate SIZE none
  value_stream_connections := List.replicate SIZE (List.replicate CONNECTION_SIZE none)
  destination_connections := List.replicate OUTPUT_CHANNELS (List.replicate CONNECTION_SIZE none)
  output_channels :=
    List.replicate OUTPUT_CHANNELS (List.replicate STANDARD_BLOCK_SIZE (0 : ℚ))

/-- `add_instrument`: first free slot, `none` models the
`"No more space for instruments"` panic. -/
def add_instrument (g : InstrumentGraph Note) (instrument : Container Note) :
    Option (ℕ × InstrumentGraph Note) :=
  match firstFreeIdx g.instruments with
  | some i => some (i, { g with instruments := g.instruments.set i (some instrument) })
  | none => none

/-- `add_control_source`: first free slot, `none` models the
`"No more space for control sources"` panic. -/
def add_control_source (g : InstrumentGraph Note) (control_source : ControlSource Note) :
    Option (ℕ × InstrumentGraph Note) :=
  match firstFreeIdx g.control_sources with
  | some i =>
      some (i, { g with control_sources := g.control_sources.set i (some control_source) })
  | none => none

/-- `connect_control_source`: checks only `instrument_index < SIZE`
(the control-source index is stored unchecked); overwrites the
instrument's single control binding. -/
def connect_control_source (g : InstrumentGraph Note)
    (control_source_index instrument_index : ℕ) : Option (InstrumentGraph Note) :=
  if instrument_index < g.instruments.length then
    some { g with instruments_control_sources :=
      (g.instruments_control_sources.set instrument_index
        (some ⟨control_source_index⟩)) }
  else none

/-- `connect_value_stream`: checks both instrument indices against `SIZE`,
then appends into the destination row's first free entry; `none` models
both index panics and the `"No more space for value stream connections"`
panic. -/
def connect_value_stream (g : InstrumentGraph Note)
    (source_index source_stream_index destination_index destination_stream_index : ℕ) :
    Option (InstrumentGraph Note) :=
  if source_index < g.instruments.length then
    if destination_index < g.instruments.length then
      match firstFreeIdx (g.value_stream_connections.getD destination_index []) with
      | some j =>
          some { g with value_stream_connections :=
            (g.value_stream_connections.set destination_index
              ((g.value_stream_connections.getD destination_index []).set j
                (some ⟨source_index, source_stream_index, destination_stream_index⟩))) }
      | none => none
    else none
  else none

/-- `connect_destination`: the channel index is used unchecked as an array
index (panic if out of range, modelled by the `get?`), the source index is
stored unchecked; appends into the channel row's first free entry. -/
def connect_destination (g : InstrumentGraph Note)
    (output_channel_index source_index source_stream_index : ℕ) :
    Option (InstrumentGraph Note) :=
  match g.destination_connections.get? output_channel_index with
  | none => none
  | some row =>
      match firstFreeIdx row with
      | some j =>
          some { g with destination_connections :=
            (g.destination_connections.set output_channel_index
              (row.set j (some ⟨source_index, source_stream_index⟩))) }
      | none => none

/-- `clear_output`: zero every output channel block. -/
def clear_output (g : InstrumentGraph Note) : InstrumentGraph Note :=
  { g with output_channels :=
      g.output_channels.map (fun _ => List.replicate STANDARD_BLOCK_SIZE (0 : ℚ)) }

/-- `get_instrument_process_order()`: the scan loop run on the value-stream
connection table.  `schedLoop` is given `SIZE` passes of fuel: when the
loop's `order_index == SIZE` exit is reachable at all it is reached within
`SIZE` passes (`schedLoop_completes`), and beyond that the state is stable
(`schedLoop_stable`); when it is not — a dependency cycle, or `SIZE = 0`,
where the exit test right after the append is never executed — the Rust
loop never returns (`schedLoop_cyclic_incomplete`, `schedLoop_zero`) and
the fuel simply runs out on the frozen state.  The returned list holds the
entries written into the `order` array; the Rust array positions past
`order.length` still hold the `usize::MAX` sentinel at which `process_next`
stops scanning. -/
def get_instrument_process_order (g : InstrumentGraph Note) : List ℕ :=
  (schedLoop g.instruments.length g.value_stream_connections
    g.instruments.length (schedInit g.instruments.length)).order

/-- `get_output(index)`: the output channel accumulator block. -/
def get_output (g : InstrumentGraph Note) (index : ℕ) : Option (List ℚ) :=
  g.output_channels.get? index

/-- One iteration of the value-stream propagation loop of `process_next`
(`src/graph.rs` lines 191–206) for destination slot `instrument_index`:
read the source instrument's current output block (`None` if the source
slot is unfilled, a panic if the source index or stream index is out of
range), then, if the destination slot is filled, `unwrap` the block (panic
if the source slot was unfilled) and feed it additively. -/
def process_slot_conn (g : InstrumentGraph Note) (instrument_index : ℕ)
    (oc : Option ValueStreamConnection) : Option (InstrumentGraph Note) :=
  match oc with
  | none => some g
  | some conn =>
      match g.instruments.get? conn.source_index with
      | none => none
      | some srcSlot =>
          let source_stream : Option (Option (List ℚ)) :=
            match srcSlot with
            | some src =>
                (match src.get_output conn.source_stream_index with
                 | none => none
                 | some s => some (some s))
            | none => some none
          match source_stream with
          | none => none
          | some ss =>
              match g.instruments.get? instrument_index with
              | none => none
              | some none => some g
              | some (some inst) =>
                  match ss with
                  | none => none
                  | some s =>
                      match inst.feed_value_stream conn.destination_stream_index s with
                      | none => none
                      | some inst2 =>
                          some { g with instruments :=
                            (g.instruments.set instrument_index (some inst2)) }

/-- The control-feeding and processing part of `process_next` for one slot
(lines 208–217): if the slot is filled, feed the bound control source's
current block into every declared control input, then run the instrument. -/
def process_slot_ctrl (g : InstrumentGraph Note) (instrument_index : ℕ) :
    Option (InstrumentGraph Note) :=
  match g.instruments.get? instrument_index with
  | none => none
  | some none => some g
  | some (some inst) =>
      match (List.range inst.in_control_streams).foldlM (fun ins j =>
          match g.instruments_control_sources.getD instrument_index none with
          | none => some ins
          | some connection =>
              match g.control_sources.get? connection.source_index with
              | none => none
              | some none => some ins
              | some (some cs) =>
                  Container.feed_control_stream ins j cs.get_control_stream) inst with
      | none => none
      | some inst2 =>
          some { g with instruments :=
            (g.instruments.set instrument_index (some inst2.process_next)) }

/-- The body of the main `process_next` loop for one slot of the order. -/
def process_slot (g : InstrumentGraph Note) (instrument_index : ℕ) :
    Option (InstrumentGraph Note) :=
  match (g.value_stream_connections.getD instrument_index []).foldlM
      (fun g2 oc => process_slot_conn g2 instrument_index oc) g with
  | none => none
  | some g2 => process_slot_ctrl g2 instrument_index

/-- The output-channel accumulation of `process_next` (lines 220–234) for
one channel's block. -/
def accum_destinations (g : InstrumentGraph Note) (row : List (Option DestinationConnection))
    (ch : List ℚ) : Option (List ℚ) :=
  row.foldlM (fun ch2 oc =>
    match oc with
    | none => some ch2
    | some dc =>
        match g.instruments.get? dc.source_index with
        | none => none
        | some none => some ch2
        | some (some src) =>
            match src.get_output dc.source_stream_index with
            | none => none
            | some ss => some (List.zipWith (fun a b => a + b) ch2 ss)) ch

/-- Step 3 of `process_next`: advance every control source exactly once. -/
def fetch_all (g : InstrumentGraph Note) : InstrumentGraph Note :=
  { g with control_sources :=
      (g.control_sources.map (fun o => o.map ControlSource.fetch_next_stream)) }

/-- `process_next()` from `src/graph.rs`: clear the output accumulators,
recompute the process order, advance every control source, process every
slot in order (value-stream propagation, control feeding, instrument step),
then accumulate the connected instrument outputs into the output channels.
`none` models a panic anywhere in the step. -/
def process_next (g : InstrumentGraph Note) : Option (InstrumentGraph Note) :=
  match (get_instrument_process_order (clear_output g)).foldlM
      (fun ga idx => process_slot ga idx) (fetch_all (clear_output g)) with
  | none => none
  | some g3 =>
      (List.range g3.output_channels.length).foldlM (fun gb i =>
        match accum_destinations gb (gb.destination_connections.getD i [])
            (gb.output_channels.getD i []) with
        | none => none
        | some ch2 => some { gb with output_channels := (gb.output_channels.set i ch2) }) g3

end InstrumentGraph

/-! ### C1 and C2: the process order -/

theorem no_cycle_of_rank (rows : List (List (Option ValueStreamConnection))) (f : ℕ → ℕ)
    (h : ∀ u v, hasEdge rows u v → f u < f v) :
    ∀ u, ¬ Relation.TransGen (hasEdge rows) u u := by
  intro u hu
  have hmono : ∀ a b, Relation.TransGen (hasEdge rows) a b → f a < f b := by
    intro a b hab
    induction hab with
    | single h1 => exact h _ _ h1
    | tail hab h1 ih => exact lt_trans ih (h _ _ h1)
  exact absurd (hmono u u hu) (lt_irrefl _)

/-- C1: for every graph whose value-stream connection edges form an acyclic
dependency relation (with all stored source indices in range, as
`connect_value_stream` guarantees), `get_instrument_process_order()`
returns an order containing each filled instrument slot exactly once, and
for every value-stream edge from source `u` into destination `v`, `u`
appears strictly before `v` in the order. -/
theorem c1_process_order_topological {Note : Type} [Inhabited Note]
    (g : InstrumentGraph Note)
    (hlen : g.value_stream_connections.length = g.instruments.length)
    (hwf : ∀ u v, hasEdge g.value_stream_connections u v → u < g.instruments.length)
    (hacyc : ∀ u, ¬ Relation.TransGen (hasEdge g.value_stream_connections) u u) :
    (∀ i, i < g.instruments.length → (g.instruments.getD i none).isSome = true →
        (InstrumentGraph.get_instrument_process_order g).count i = 1) ∧
    (∀ u v, hasEdge g.value_stream_connections u v →
        [u, v].Sublist (InstrumentGraph.get_instrument_process_order g)) := by
  have hcomp := schedLoop_completes g.instruments.length g.value_stream_connections hwf hacyc
  obtain ⟨h1, h2, h3, h4, h5, h6⟩ := schedLoop_inv g.instruments.length
    g.value_stream_connections g.instruments.length
    (schedInit g.instruments.length)
    (schedInit_inv g.instruments.length g.value_stream_connections)
  constructor
  · intro i hi hfill
    exact List.count_eq_one_of_mem h2
      (complete_all_mem g.instruments.length _ hcomp h2 h3 i hi)
  · intro u v hedge
    have hvlt : v < g.instruments.length := by
      have := hasEdge_lt g.value_stream_connections u v hedge
      omega
    exact h6 v (complete_all_mem g.instruments.length _ hcomp h2 h3 v hvlt) u hedge

/-- A trivial wrapped instrument used in the concrete witness graphs. -/
def wbox : Container ℕ := Container.new 1 0 1 (fun _ => [])

/-- A two-slot graph with one value-stream edge from slot 0 into slot 1. -/
def c1graph : InstrumentGraph ℕ where
  instruments := [some wbox, some wbox]
  control_sources := []
  instruments_control_sources := [none, none]
  value_stream_connections := [[none], [some ⟨0, 0, 0⟩]]
  destination_connections := []
  output_channels := []

theorem c1graph_wf : ∀ u v, hasEdge c1graph.value_stream_connections u v →
    u < c1graph.instruments.length := by
  rintro u v ⟨c, hc, rfl⟩
  rcases v with _ | _ | v
  · simp [c1graph] at hc
  · simp [c1graph] at hc
    subst hc
    norm_num [c1graph]
  · simp [c1graph] at hc

theorem c1graph_acyc : ∀ u, ¬ Relation.TransGen (hasEdge c1graph.value_stream_connections) u u := by
  apply no_cycle_of_rank _ (fun i => i)
  rintro u v ⟨c, hc, rfl⟩
  rcases v with _ | _ | v
  · simp [c1graph] at hc
  · simp [c1graph] at hc
    subst hc
    norm_num
  · simp [c1graph] at hc

/-- Witness for C1 on the concrete two-slot graph with edge `0 → 1`. -/
theorem c1_process_order_topological_witness :
    (InstrumentGraph.get_instrument_process_order c1graph).count 0 = 1 ∧
    (InstrumentGraph.get_instrument_process_order c1graph).count 1 = 1 ∧
    [0, 1].Sublist (InstrumentGraph.get_instrument_process_order c1graph) := by
  obtain ⟨hcount, htopo⟩ := c1_process_order_topological c1graph rfl c1graph_wf c1graph_acyc
  refine ⟨hcount 0 (by norm_num [c1graph]) rfl, hcount 1 (by norm_num [c1graph]) rfl, ?_⟩
  exact htopo 0 1 ⟨⟨0, 0, 0⟩, by simp [c1graph], rfl⟩

/-- C2 (amended): the scan loop's `order_index == SIZE` exit test runs only
right after a slot is appended to the order.  For a graph with at least one
slot whose value-stream connection edges are acyclic, the exit fires within
`SIZE` passes — the order is then complete and nonempty, and running any
further passes changes nothing; for a graph whose connection edges contain
a cycle the exit condition fails after every number of passes and the loop
never returns, the state frozen from pass `SIZE` on; and for a zero-slot
graph the inner `for` body is empty, so no append ever happens, the exit
test is never executed, every pass returns the state unchanged, and the
loop never returns either — acyclicity alone does not guarantee
termination. -/
theorem c2_process_order_termination_amended {Note : Type} [Inhabited Note]
    (g gcyc : InstrumentGraph Note)
    (hpos : 0 < g.instruments.length)
    (hwf : ∀ u v, hasEdge g.value_stream_connections u v → u < g.instruments.length)
    (hacyc : ∀ u, ¬ Relation.TransGen (hasEdge g.value_stream_connections) u u)
    (hwfc : ∀ u v, hasEdge gcyc.value_stream_connections u v → u < gcyc.instruments.length)
    (hcyc : ∃ u, Relation.TransGen (hasEdge gcyc.value_stream_connections) u u) :
    ((InstrumentGraph.get_instrument_process_order g).length = g.instruments.length ∧
      InstrumentGraph.get_instrument_process_order g ≠ []) ∧
    (∀ fuel, g.instruments.length ≤ fuel →
      schedLoop g.instruments.length g.value_stream_connections fuel
          (schedInit g.instruments.length) =
        schedLoop g.instruments.length g.value_stream_connections
          g.instruments.length (schedInit g.instruments.length)) ∧
    (∀ fuel, (schedLoop gcyc.instruments.length gcyc.value_stream_connections fuel
        (schedInit gcyc.instruments.length)).order.length ≠ gcyc.instruments.length) ∧
    (∀ fuel, gcyc.instruments.length ≤ fuel →
      schedLoop gcyc.instruments.length gcyc.value_stream_connections fuel
          (schedInit gcyc.instruments.length) =
        schedLoop gcyc.instruments.length gcyc.value_stream_connections
          gcyc.instruments.length (schedInit gcyc.instruments.length)) ∧
    (∀ (gz : InstrumentGraph Note), gz.instruments.length = 0 →
      (∀ fuel st, schedLoop gz.instruments.length gz.value_stream_connections fuel st = st) ∧
      ∀ st : SchedState,
        ¬(st.order.length = gz.instruments.length ∧ st.order ≠ [])) := by
  refine ⟨⟨?_, ?_⟩, ?_, ?_, ?_, ?_⟩
  · exact schedLoop_completes g.instruments.length g.value_stream_connections hwf hacyc
  · exact order_nonempty_of_complete g.instruments.length _
      (schedLoop_completes g.instruments.length g.value_stream_connections hwf hacyc) hpos
  · exact schedLoop_stable g.instruments.length g.value_stream_connections
  · exact schedLoop_cyclic_incomplete gcyc.instruments.length
      gcyc.value_stream_connections hwfc hcyc
  · exact schedLoop_stable gcyc.instruments.length gcyc.value_stream_connections
  · intro gz hz
    constructor
    · intro fuel st
      rw [hz]
      exact schedLoop_zero gz.value_stream_connections fuel st
    · rintro st ⟨h1, h2⟩
      rw [hz] at h1
      exact h2 (List.length_eq_zero.mp h1)

/-- A one-slot graph whose only connection is a self-loop `0 → 0`. -/
def c2cyc : InstrumentGraph ℕ where
  instruments := [some wbox]
  control_sources := []
  instruments_control_sources := [none]
  value_stream_connections := [[some ⟨0, 0, 0⟩]]
  destination_connections := []
  output_channels := []

theorem c2cyc_wf : ∀ u v, hasEdge c2cyc.value_stream_connections u v →
    u < c2cyc.instruments.length := by
  rintro u v ⟨c, hc, rfl⟩
  rcases v with _ | v
  · simp [c2cyc] at hc
    subst hc
    norm_num [c2cyc]
  · simp [c2cyc] at hc

theorem c2cyc_hascycle :
    ∃ u, Relation.TransGen (hasEdge c2cyc.value_stream_connections) u u :=
  ⟨0, Relation.TransGen.single ⟨⟨0, 0, 0⟩, by simp [c2cyc], rfl⟩⟩

/-- A zero-slot graph: the scan's inner `for` body is empty, so the
`order_index == SIZE` exit test, which sits right after an append, is
never executed. -/
def c2zero : InstrumentGraph ℕ where
  instruments := []
  control_sources := []
  instruments_control_sources := []
  value_stream_connections := []
  destination_connections := []
  output_channels := []

/-- Counterexample to C2 as stated: the zero-slot graph's edge relation is
(vacuously) acyclic, yet `get_instrument_process_order` never terminates on
it — every pass of the scan loop returns the state unchanged, and no state
can satisfy the exit test (which runs only right after a slot is appended,
so only with a nonempty order), so the Rust `loop` spins forever. -/
theorem c2_counterexample :
    (∀ u, ¬ Relation.TransGen (hasEdge c2zero.value_stream_connections) u u) ∧
    (∀ fuel st, schedLoop c2zero.instruments.length c2zero.value_stream_connections
        fuel st = st) ∧
    (∀ st : SchedState,
      ¬(st.order.length = c2zero.instruments.length ∧ st.order ≠ [])) := by
  refine ⟨?_, ?_, ?_⟩
  · apply no_cycle_of_rank _ (fun i => i)
    rintro u v ⟨c, hc, rfl⟩
    simp [c2zero] at hc
  · intro fuel st
    exact schedLoop_zero c2zero.value_stream_connections fuel st
  · rintro st ⟨h1, h2⟩
    exact h2 (List.length_eq_zero.mp h1)

/-- Witness for C2 (amended): the acyclic two-slot graph exits with a full
nonempty order, the one-slot self-loop graph's scan never reaches the exit
condition, and the zero-slot graph's scan never changes state. -/
theorem c2_process_order_termination_amended_witness :
    (InstrumentGraph.get_instrument_process_order c1graph).length =
        c1graph.instruments.length ∧
    InstrumentGraph.get_instrument_process_order c1graph ≠ [] ∧
    (schedLoop c2cyc.instruments.length c2cyc.value_stream_connections 5
        (schedInit c2cyc.instruments.length)).order.length ≠ c2cyc.instruments.length ∧
    schedLoop c2zero.instruments.length c2zero.value_stream_connections 7
        (schedInit c2zero.instruments.length) = schedInit c2zero.instruments.length := by
  obtain ⟨⟨hA1, hA2⟩, hB, hC, hD, hE⟩ :=
    c2_process_order_termination_amended c1graph c2cyc (by norm_num [c1graph])
      c1graph_wf c1graph_acyc c2cyc_wf c2cyc_hascycle
  exact ⟨hA1, hA2, hC 5, (hE c2zero rfl).1 7 (schedInit c2zero.instruments.length)⟩

/-! ### C8: setup errors versus steady-state failures -/

theorem firstFreeIdx_isSome_iff {α : Type} (l : List (Option α)) :
    (firstFreeIdx l).isSome = true ↔ ∃ o ∈ l, o = none := by
  constructor
  · intro h
    by_contra hc
    push_neg at hc
    have hnone : firstFreeIdx l = none := by
      rw [firstFreeIdx_eq_none_iff]
      intro o ho
      cases o with
      | none => exact absurd rfl (hc none ho)
      | some x => rfl
    rw [hnone] at h
    simp at h
  · rintro ⟨o, ho, rfl⟩
    cases hf : firstFreeIdx l with
    | some i => simp
    | none =>
        have := (firstFreeIdx_eq_none_iff l).mp hf none ho
        simp at this

/-- The container of the C8 graphs: one control input stream. -/
def c8box : Container ℕ := Container.new 0 1 1 (fun _ => [])

/-- A one-slot graph (`SIZE = 1`, `CONTROL_SIZE = 1`) with slot 0 filled and
nothing wired. -/
def c8graphA : InstrumentGraph ℕ where
  instruments := [some c8box]
  control_sources := [none]
  instruments_control_sources := [none]
  value_stream_connections := [[none]]
  destination_connections := [[none]]
  output_channels := [List.replicate STANDARD_BLOCK_SIZE 0]

/-- `c8graphA` after `connect_control_source(5, 0)` — the out-of-range
control-source index 5 was stored without any check. -/
def c8graphB : InstrumentGraph ℕ :=
  { c8graphA with instruments_control_sources := [some ⟨5⟩] }

/-- Counterexample to C8 as stated: `connect_control_source` accepts the
out-of-range control-source index 5 (with `CONTROL_SIZE = 1`) without any
error at the call, and the next `process_next` then fails (panics indexing
`control_sources[5]`) during steady-state processing. -/
theorem c8_counterexample :
    InstrumentGraph.connect_control_source c8graphA 5 0 = some c8graphB ∧
    InstrumentGraph.process_next c8graphB = none := by
  exact ⟨rfl, rfl⟩

/-- C8 amended: capacity overflow on `add_instrument`, `add_control_source`,
`connect_value_stream` and `connect_destination` is fatal and surfaced at
the call, as is an out-of-range instrument index on `connect_control_source`
or `connect_value_stream` and an out-of-range channel index on
`connect_destination`; but `connect_control_source` does not validate its
control-source index (it succeeds for every index whenever the instrument
index is in range) and `connect_destination` does not validate its source
index, and steady-state `process_next` can then fail: on the concrete graph
whose only wiring call `connect_control_source(5, 0)` was accepted,
`process_next` panics. -/
theorem c8_setup_errors_amended {Note : Type} [Inhabited Note] :
    (∀ (g : InstrumentGraph Note) (c : Container Note),
        InstrumentGraph.add_instrument g c = none ↔
          ∀ o ∈ g.instruments, o.isSome = true) ∧
    (∀ (g : InstrumentGraph Note) (s : ControlSource Note),
        InstrumentGraph.add_control_source g s = none ↔
          ∀ o ∈ g.control_sources, o.isSome = true) ∧
    (∀ (g : InstrumentGraph Note) (ci ii : ℕ),
        (InstrumentGraph.connect_control_source g ci ii).isSome = true ↔
          ii < g.instruments.length) ∧
    (∀ (g : InstrumentGraph Note) (si ssi di dsi : ℕ),
        (InstrumentGraph.connect_value_stream g si ssi di dsi).isSome = true ↔
          si < g.instruments.length ∧ di < g.instruments.length ∧
            ∃ o ∈ g.value_stream_connections.getD di [], o = none) ∧
    (∀ (g : InstrumentGraph Note) (ch si ssi : ℕ),
        (InstrumentGraph.connect_destination g ch si ssi).isSome = true ↔
          ch < g.destination_connections.length ∧
            ∃ o ∈ g.destination_connections.getD ch [], o = none) ∧
    (InstrumentGraph.connect_control_source c8graphA 5 0 = some c8graphB ∧
      InstrumentGraph.process_next c8graphB = none) := by
  refine ⟨?_, ?_, ?_, ?_, ?_, rfl, rfl⟩
  · intro g c
    rw [← firstFreeIdx_eq_none_iff]
    unfold InstrumentGraph.add_instrument
    cases h : firstFreeIdx g.instruments <;> simp
  · intro g s
    rw [← firstFreeIdx_eq_none_iff]
    unfold InstrumentGraph.add_control_source
    cases h : firstFreeIdx g.control_sources <;> simp
  · intro g ci ii
    unfold InstrumentGraph.connect_control_source
    split_ifs with h <;> simp [h]
  · intro g si ssi di dsi
    unfold InstrumentGraph.connect_value_stream
    split_ifs with hsi hdi
    · rw [← firstFreeIdx_isSome_iff]
      cases h : firstFreeIdx (g.value_stream_connections.getD di []) <;>
        simp [hsi, hdi, h]
    · simp [hsi, hdi]
    · simp [hsi]
  · intro g ch si ssi
    unfold InstrumentGraph.connect_destination
    cases h : g.destination_connections.get? ch with
    | none =>
        have hch : ¬ ch < g.destination_connections.length := by
          intro hlt
          rw [get?_eq_some_getD _ _ [] hlt] at h
          exact Option.noConfusion h
        simp [hch]
    | some row =>
        have hch : ch < g.destination_connections.length := by
          by_contra hc
          rw [List.get?_eq_getElem?, List.getElem?_eq_none (by omega)] at h
          exact Option.noConfusion h
        have hrow : row = g.destination_connections.getD ch [] := by
          rw [get?_eq_some_getD _ _ [] hch] at h
          exact (Option.some.inj h).symm
        rw [← firstFreeIdx_isSome_iff, ← hrow]
        cases hf : firstFreeIdx row <;> simp [hf, hch]

/-! ### C10: a wired edge out of an unfilled slot panics `process_next` -/

/-- What `process_next`'s main loop preserves: the slot count, which slots
are filled, and the connection table. -/
def GraphInv {Note : Type} (g0 g : InstrumentGraph Note) : Prop :=
  g.instruments.length = g0.instruments.length ∧
  (∀ i, (g.instruments.getD i none).isSome = (g0.instruments.getD i none).isSome) ∧
  g.value_stream_connections = g0.value_stream_connections

theorem foldlM_opt_none {σ α : Type} (f : σ → α → Option σ) (P : σ → Prop) (x : α)
    (hpres : ∀ s a s2, P s → f s a = some s2 → P s2)
    (hnone : ∀ s, P s → f s x = none) :
    ∀ (l : List α) (s : σ), x ∈ l → P s → List.foldlM f s l = none := by
  intro l
  induction l with
  | nil => intro s hx; cases hx
  | cons a t ih =>
      intro s hx hs
      rw [List.foldlM_cons]
      by_cases hax : a = x
      · subst hax
        rw [hnone s hs]
        rfl
      · cases hf : f s a with
        | none => rfl
        | some s2 =>
            have hx2 : x ∈ t := by
              rcases List.mem_cons.mp hx with h | h
              · exact absurd h.symm hax
              · exact h
            exact ih s2 hx2 (hpres s a s2 hs hf)

theorem foldlM_opt_some {σ α : Type} (f : σ → α → Option σ) (P : σ → Prop)
    (hpres : ∀ s a s2, P s → f s a = some s2 → P s2) :
    ∀ (l : List α) (s s2 : σ), P s → List.foldlM f s l = some s2 → P s2 := by
  intro l
  induction l with
  | nil =>
      intro s s2 hs h
      rw [List.foldlM_nil] at h
      obtain rfl := Option.some.inj h
      exact hs
  | cons a t ih =>
      intro s s2 hs h
      rw [List.foldlM_cons] at h
      cases hf : f s a with
      | none =>
          rw [hf] at h
          exact Option.noConfusion h
      | some s3 =>
          rw [hf] at h
          exact ih s3 s2 (hpres s a s3 hs hf) h

theorem set_eq_of_length_le {α : Type} (l : List α) (i : ℕ) (a : α) (h : l.length ≤ i) :
    l.set i a = l := by
  induction l generalizing i with
  | nil => rfl
  | cons b t ih =>
      cases i with
      | zero => simp at h
      | succ i => simp only [List.set_cons_succ]; rw [ih i (by simpa using h)]

theorem GraphInv_set_filled {Note : Type} [Inhabited Note] (g0 g : InstrumentGraph Note)
    (hinv : GraphInv g0 g) (idx : ℕ) (inst inst2 : Container Note)
    (hget : g.instruments.get? idx = some (some inst)) :
    GraphInv g0 { g with instruments := (g.instruments.set idx (some inst2)) } := by
  obtain ⟨hL, hS, hC⟩ := hinv
  have hlt : idx < g.instruments.length := by
    by_contra hc
    rw [List.get?_eq_getElem?, List.getElem?_eq_none (by omega)] at hget
    exact Option.noConfusion hget
  have hgetd : g.instruments.getD idx none = some inst := by
    have h2 := get?_eq_some_getD g.instruments idx none hlt
    rw [hget] at h2
    exact (Option.some.inj h2).symm
  refine ⟨by simpa using hL, ?_, hC⟩
  intro i
  show ((g.instruments.set idx (some inst2)).getD i none).isSome
      = (g0.instruments.getD i none).isSome
  by_cases hii : idx = i
  · subst hii
    rw [getD_set_self _ _ _ _ hlt]
    have h2 := hS idx
    rw [hgetd] at h2
    simp only [Option.isSome_some] at h2 ⊢
    exact h2
  · rw [getD_set_ne _ _ _ _ _ hii]
    exact hS i

theorem process_slot_conn_inv {Note : Type} [Inhabited Note] (g0 : InstrumentGraph Note)
    (g : InstrumentGraph Note) (idx : ℕ) (oc : Option ValueStreamConnection)
    (g2 : InstrumentGraph Note) (hinv : GraphInv g0 g)
    (h : InstrumentGraph.process_slot_conn g idx oc = some g2) : GraphInv g0 g2 := by
  cases oc with
  | none =>
      obtain rfl := Option.some.inj h
      exact hinv
  | some conn =>
      simp only [InstrumentGraph.process_slot_conn] at h
      cases hget : g.instruments.get? conn.source_index with
      | none => simp only [hget] at h; exact Option.noConfusion h
      | some srcSlot =>
          cases srcSlot with
          | none =>
              simp only [hget] at h
              cases hgetd : g.instruments.get? idx with
              | none => simp only [hgetd] at h; exact Option.noConfusion h
              | some slot =>
                  cases slot with
                  | none =>
                      simp only [hgetd] at h
                      obtain rfl := Option.some.inj h
                      exact hinv
                  | some inst => simp only [hgetd] at h; exact Option.noConfusion h
          | some src =>
              simp only [hget] at h
              cases hout : src.get_output conn.source_stream_index with
              | none => simp only [hout] at h; exact Option.noConfusion h
              | some s =>
                  simp only [hout] at h
                  cases hgetd : g.instruments.get? idx with
                  | none => simp only [hgetd] at h; exact Option.noConfusion h
                  | some slot =>
                      cases slot with
                      | none =>
                          simp only [hgetd] at h
                          obtain rfl := Option.some.inj h
                          exact hinv
                      | some inst =>
                          simp only [hgetd] at h
                          cases hfeed :
                              inst.feed_value_stream conn.destination_stream_index s with
                          | none => simp only [hfeed] at h; exact Option.noConfusion h
                          | some inst2 =>
                              simp only [hfeed] at h
                              obtain rfl := Option.some.inj h
                              exact GraphInv_set_filled g0 g hinv idx inst inst2 hgetd

theorem process_slot_ctrl_inv {Note : Type} [Inhabited Note] (g0 : InstrumentGraph Note)
    (g : InstrumentGraph Note) (idx : ℕ) (g2 : InstrumentGraph Note) (hinv : GraphInv g0 g)
    (h : InstrumentGraph.process_slot_ctrl g idx = some g2) : GraphInv g0 g2 := by
  unfold InstrumentGraph.process_slot_ctrl at h
  cases hget : g.instruments.get? idx with
  | none => simp only [hget] at h; exact Option.noConfusion h
  | some slot =>
      cases slot with
      | none =>
          simp only [hget] at h
          obtain rfl := Option.some.inj h
          exact hinv
      | some inst =>
          simp only [hget] at h
          cases hloop : (List.range inst.in_control_streams).foldlM (fun ins j =>
              match g.instruments_control_sources.getD idx none with
              | none => some ins
              | some connection =>
                  match g.control_sources.get? connection.source_index with
                  | none => none
                  | some none => some ins
                  | some (some cs) =>
                      Container.feed_control_stream ins j cs.get_control_stream) inst with
          | none => simp only [hloop] at h; exact Option.noConfusion h
          | some inst2 =>
              simp only [hloop] at h
              obtain rfl := Option.some.inj h
              exact GraphInv_set_filled g0 g hinv idx inst inst2.process_next hget

theorem process_slot_inv {Note : Type} [Inhabited Note] (g0 : InstrumentGraph Note)
    (g : InstrumentGraph Note) (idx : ℕ) (g2 : InstrumentGraph Note) (hinv : GraphInv g0 g)
    (h : InstrumentGraph.process_slot g idx = some g2) : GraphInv g0 g2 := by
  unfold InstrumentGraph.process_slot at h
  cases hfold : List.foldlM (fun g3 oc => InstrumentGraph.process_slot_conn g3 idx oc) g
      (g.value_stream_connections.getD idx []) with
  | none => simp only [hfold] at h; exact Option.noConfusion h
  | some g3 =>
      simp only [hfold] at h
      have hinv3 : GraphInv g0 g3 :=
        foldlM_opt_some _ (GraphInv g0)
          (fun s a s2 hs hf => process_slot_conn_inv g0 s idx a s2 hs hf)
          _ g g3 hinv hfold
      exact process_slot_ctrl_inv g0 g3 idx g2 hinv3 h

theorem process_slot_conn_bad {Note : Type} [Inhabited Note] (g0 : InstrumentGraph Note)
    (conn : ValueStreamConnection) (v : ℕ)
    (hsrc_lt : conn.source_index < g0.instruments.length)
    (hsrc_empty : (g0.instruments.getD conn.source_index none).isSome = false)
    (hv_fill : (g0.instruments.getD v none).isSome = true) :
    ∀ g, GraphInv g0 g → InstrumentGraph.process_slot_conn g v (some conn) = none := by
  intro g hinv
  obtain ⟨hL, hS, hC⟩ := hinv
  have hsrc_lt2 : conn.source_index < g.instruments.length := by omega
  have hsrcg : g.instruments.getD conn.source_index none = none := by
    have h2 := hS conn.source_index
    rw [hsrc_empty] at h2
    cases hval : g.instruments.getD conn.source_index none with
    | none => rfl
    | some c =>
        rw [hval] at h2
        simp at h2
  have hget : g.instruments.get? conn.source_index = some none := by
    rw [get?_eq_some_getD _ _ none hsrc_lt2, hsrcg]
  have hvfill : ∃ c, g.instruments.getD v none = some c := by
    have h2 := hS v
    rw [hv_fill] at h2
    cases hval : g.instruments.getD v none with
    | none =>
        rw [hval] at h2
        simp at h2
    | some c => exact ⟨c, rfl⟩
  obtain ⟨c, hcv⟩ := hvfill
  have hvlt : v < g.instruments.length := by
    by_contra hc2
    rw [List.getD_eq_default _ _ (by omega)] at hcv
    exact Option.noConfusion hcv
  have hgetv : g.instruments.get? v = some (some c) := by
    rw [get?_eq_some_getD _ _ none hvlt, hcv]
  unfold InstrumentGraph.process_slot_conn
  simp only [hget, hgetv]

theorem process_slot_bad {Note : Type} [Inhabited Note] (g0 : InstrumentGraph Note)
    (v : ℕ) (conn : ValueStreamConnection)
    (hmem : some conn ∈ g0.value_stream_connections.getD v [])
    (hsrc_lt : conn.source_index < g0.instruments.length)
    (hsrc_empty : (g0.instruments.getD conn.source_index none).isSome = false)
    (hv_fill : (g0.instruments.getD v none).isSome = true) :
    ∀ g, GraphInv g0 g → InstrumentGraph.process_slot g v = none := by
  intro g hinv
  unfold InstrumentGraph.process_slot
  have hrow : g.value_stream_connections = g0.value_stream_connections := hinv.2.2
  rw [hrow]
  have hfold : List.foldlM (fun g2 oc => InstrumentGraph.process_slot_conn g2 v oc) g
      (g0.value_stream_connections.getD v []) = none :=
    foldlM_opt_none _ (GraphInv g0) (some conn)
      (fun s a s2 hs hf => process_slot_conn_inv g0 s v a s2 hs hf)
      (fun s hs => process_slot_conn_bad g0 conn v hsrc_lt hsrc_empty hv_fill s hs)
      _ g hmem hinv
  rw [hfold]

/-- C10: if some value-stream connection into a filled destination slot `v`
names an unfilled source slot, `process_next` panics while propagating that
connection (the source output is `None` and gets unwrapped); and at setup
time `connect_value_stream` accepts any edge without error whenever both
instrument indices are below `SIZE` and the destination's connection row
still has a free entry (the amended proviso: with a full row the call
panics even with both indices in range, see the counterexample). -/
theorem c10_unfilled_source_panics {Note : Type} [Inhabited Note]
    (g : InstrumentGraph Note)
    (hlen : g.value_stream_connections.length = g.instruments.length)
    (hwf : ∀ u v, hasEdge g.value_stream_connections u v → u < g.instruments.length)
    (hacyc : ∀ u, ¬ Relation.TransGen (hasEdge g.value_stream_connections) u u)
    (v : ℕ) (conn : ValueStreamConnection)
    (hmem : some conn ∈ g.value_stream_connections.getD v [])
    (hsrc_empty : (g.instruments.getD conn.source_index none).isSome = false)
    (hv_fill : (g.instruments.getD v none).isSome = true) :
    InstrumentGraph.process_next g = none ∧
    (∀ si ssi di dsi, si < g.instruments.length → di < g.instruments.length →
        (∃ o ∈ g.value_stream_connections.getD di [], o = none) →
        (InstrumentGraph.connect_value_stream g si ssi di dsi).isSome = true) := by
  constructor
  · have hedge : hasEdge g.value_stream_connections conn.source_index v := ⟨conn, hmem, rfl⟩
    have hsrc_lt : conn.source_index < g.instruments.length := hwf _ _ hedge
    have hvlt : v < g.instruments.length := by
      have := hasEdge_lt g.value_stream_connections conn.source_index v hedge
      omega
    have hcomp : (InstrumentGraph.get_instrument_process_order
        (InstrumentGraph.clear_output g)).length = g.instruments.length :=
      schedLoop_completes g.instruments.length g.value_stream_connections hwf hacyc
    obtain ⟨h1, h2, h3, h4, h5, h6⟩ := schedLoop_inv g.instruments.length
      g.value_stream_connections g.instruments.length (schedInit g.instruments.length)
      (schedInit_inv g.instruments.length g.value_stream_connections)
    have hvmem : v ∈ InstrumentGraph.get_instrument_process_order
        (InstrumentGraph.clear_output g) :=
      complete_all_mem g.instruments.length _ hcomp h2 h3 v hvlt
    have hstart : GraphInv g (InstrumentGraph.fetch_all (InstrumentGraph.clear_output g)) :=
      ⟨rfl, fun i => rfl, rfl⟩
    have hfold : List.foldlM (fun ga idx => InstrumentGraph.process_slot ga idx)
        (InstrumentGraph.fetch_all (InstrumentGraph.clear_output g))
        (InstrumentGraph.get_instrument_process_order (InstrumentGraph.clear_output g))
        = none :=
      foldlM_opt_none _ (GraphInv g) v
        (fun s a s2 hs hf => process_slot_inv g s a s2 hs hf)
        (fun s hs => process_slot_bad g v conn hmem hsrc_lt hsrc_empty hv_fill s hs)
        _ _ hvmem hstart
    unfold InstrumentGraph.process_next
    rw [hfold]
  · intro si ssi di dsi hsi hdi hfree
    unfold InstrumentGraph.connect_value_stream
    rw [if_pos hsi, if_pos hdi]
    cases hf : firstFreeIdx (g.value_stream_connections.getD di []) with
    | none =>
        have hsome := (firstFreeIdx_isSome_iff _).mpr hfree
        rw [hf] at hsome
        simp at hsome
    | some j => simp

/-- The graph of the C10 counterexample and witness: a pass-through box. -/
def c10box : Container ℕ := Container.new 1 0 1 (fun _ => [])

/-- One filled slot, and its single-entry connection row already full. -/
def c10full : InstrumentGraph ℕ where
  instruments := [some c10box]
  control_sources := []
  instruments_control_sources := [none]
  value_stream_connections := [[some ⟨0, 0, 0⟩]]
  destination_connections := []
  output_channels := []

/-- Counterexample to C10 as stated: both instrument indices are below
`SIZE` (= 1), yet `connect_value_stream` does not accept the edge — the
destination's connection row is full, so the call hits the
`"No more space for value stream connections"` panic. -/
theorem c10_counterexample :
    0 < c10full.instruments.length ∧
    InstrumentGraph.connect_value_stream c10full 0 0 0 0 = none := by
  constructor
  · norm_num [c10full]
  · rfl

/-- Slot 0 unfilled, slot 1 filled with an edge `0 → 1` wired in. -/
def c10graph : InstrumentGraph ℕ where
  instruments := [none, some c10box]
  control_sources := []
  instruments_control_sources := [none, none]
  value_stream_connections := [[none], [some ⟨0, 0, 0⟩]]
  destination_connections := []
  output_channels := []

theorem c10graph_wf : ∀ u v, hasEdge c10graph.value_stream_connections u v →
    u < c10graph.instruments.length := by
  rintro u v ⟨c, hc, rfl⟩
  rcases v with _ | _ | v
  · simp [c10graph] at hc
  · simp [c10graph] at hc
    subst hc
    norm_num [c10graph]
  · simp [c10graph] at hc

theorem c10graph_acyc :
    ∀ u, ¬ Relation.TransGen (hasEdge c10graph.value_stream_connections) u u := by
  apply no_cycle_of_rank _ (fun i => i)
  rintro u v ⟨c, hc, rfl⟩
  rcases v with _ | _ | v
  · simp [c10graph] at hc
  · simp [c10graph] at hc
    subst hc
    norm_num
  · simp [c10graph] at hc

/-- Witness for C10: on the concrete graph with unfilled slot 0 feeding
filled slot 1, `process_next` panics, while `connect_value_stream` happily
accepts a further edge out of the unfilled slot into the free entry of
row 0. -/
theorem c10_unfilled_source_panics_witness :
    InstrumentGraph.process_next c10graph = none ∧
    (InstrumentGraph.connect_value_stream c10graph 0 0 0 0).isSome = true := by
  obtain ⟨hA, hB⟩ := c10_unfilled_source_panics c10graph rfl c10graph_wf c10graph_acyc
    1 ⟨0, 0, 0⟩ (by simp [c10graph]) (by simp [c10graph]) rfl
  refine ⟨hA, hB 0 0 0 0 (by norm_num [c10graph]) (by norm_num [c10graph]) ?_⟩
  exact ⟨none, by simp [c10graph], rfl⟩
